import Mathlib

/-!
Verification of the npm dependency analyzer (src/analyzer.py).

The development shallowly embeds the algorithmic core of the analyzer:

* `should_skip_package` — the substring exclusion filter (analyzer.py lines 62-67);
* `dfsLoop` / `dfs_build_dependency_graph` / `dfs_build_from_test_graph` —
  the explicit-stack, depth-bounded, cycle-aware graph builders
  (analyzer.py lines 69-113 and 124-165).  The registry fetch
  (`get_package_info` composed with `extract_dependencies`) is modelled as a
  parameter `fetch : String → Option (List String)`; `none` models the code
  path where the fetch raises and the `except` branch degrades the node to a
  leaf.  In the static builder the same `none` case models a package that is
  absent from the loaded test graph, whose `else` branch is textually
  identical (sets `graph[n] = []` and continues).
* `find_reverse_dependencies` — the full-graph reverse-dependency scan
  (analyzer.py lines 178-201);
* `analyze_dependencies` / `analyze_reverse_dependencies` — the top level
  entry points (analyzer.py lines 203-246).

Python dicts preserve insertion order, so a graph is embedded as an
association list `List (String × List String)` whose key set is grown only
by appending fresh keys.  `collections.deque` used with `append`/`pop` is a
LIFO stack; it is embedded as a `List` whose head is the top.

The while-loops are embedded with an explicit fuel argument; the top level
functions supply a fuel value (`nodeBound`, `revMeasure`) that is proved
sufficient, so the fuel-exhaustion branch is unreachable on the actual
entry points.

Ghost instrumentation: the build loop additionally returns a `trace`, the
list of popped `(node, depth)` pairs together with the key-presence test and
the branch taken at that pop.  The trace is specification-only: it never
influences control flow, the graph, or the cycle flag.  It is used to state
properties of the form "the traversal pops a pair such that ...".
-/

namespace NPMAnalyzer

/-- A dependency graph: insertion-ordered mapping from package name to the
ordered list of its direct dependency names (a Python dict). -/
abbrev Graph := List (String × List String)

/-- The analyzer configuration fields consumed by the core
(`self.config` in analyzer.py). -/
structure Config where
  package_name : String
  repository_url : String
  test_repo_mode : String
  max_depth : Nat
  filter_substring : String
deriving DecidableEq

/-- Python's `str.strip()`: remove leading and trailing whitespace. -/
def pyStrip (s : String) : String :=
  ⟨((s.toList.dropWhile Char.isWhitespace).reverse.dropWhile Char.isWhitespace).reverse⟩

/-- Check that `needle` is a prefix of `hay`. -/
def leadsWith : List Char → List Char → Bool
  | [], _ => true
  | _ :: _, [] => false
  | a :: as, b :: bs => a == b && leadsWith as bs

/-- Python's substring test `needle in hay`: `needle` occurs contiguously
somewhere in `hay`. -/
def occursIn (needle : List Char) : List Char → Bool
  | [] => needle.isEmpty
  | b :: t => leadsWith needle (b :: t) || occursIn needle t

/-- analyzer.py lines 62-67: skip a package iff the stripped configured
filter substring is nonempty and occurs inside the package name. -/
def should_skip_package (filter_substring : String) (package_name : String) : Bool :=
  let f := pyStrip filter_substring
  (f != "") && occursIn f.toList package_name.toList

/-- The keys of a graph, in insertion order (`graph.keys()`). -/
def graphKeys (g : Graph) : List String := g.map Prod.fst

/-- Python's `n in graph` key-membership test. -/
def containsKey (g : Graph) (n : String) : Bool := (graphKeys g).contains n

/-- Which branch of the while-loop body handled a popped `(node, depth)`
pair (ghost information for specification only). -/
inductive StepBranch where
  /-- analyzer.py lines 79-80 / 134-135: the node matched the filter. -/
  | skipped
  /-- analyzer.py lines 83-86 / 138-141: the depth bound was reached. -/
  | truncated
  /-- analyzer.py lines 89-91 / 144-146: the node was already a key. -/
  | cycleHit
  /-- analyzer.py lines 93-106 / 149-159: the node was expanded from its
  fetched (or statically looked-up) dependency list. -/
  | expanded
  /-- analyzer.py lines 107-109 / 160-161: the fetch failed (registry mode)
  or the node was absent from the test graph (static mode); the node is
  degraded to a leaf. -/
  | failed
deriving DecidableEq

/-- Ghost record of one pop of the traversal loop: the popped node and
depth, whether the node was already a key of the graph at that moment, and
the branch taken. -/
structure PopEvent where
  node : String
  depth : Nat
  wasKey : Bool
  branch : StepBranch
deriving DecidableEq

/-- Result of one build: the adjacency mapping, the cycle flag
(`self.cycle_detected`), and the ghost trace of pops. -/
structure BuildResult where
  graph : Graph
  cycle_detected : Bool
  trace : List PopEvent
deriving DecidableEq

/-- Prepend a ghost pop event to a build result. -/
def withEvent (e : PopEvent) (r : BuildResult) : BuildResult :=
  ⟨r.graph, r.cycle_detected, e :: r.trace⟩

/-- The while-loop shared by `dfs_build_dependency_graph` (analyzer.py
lines 75-110) and `dfs_build_from_test_graph` (lines 130-161); the two
Python bodies are textually identical except for how the dependency list of
the popped node is obtained, which is abstracted as
`deps : String → Option (List String)`.

Per popped `(n, d)` (head of the stack; Python pops the right end of the
deque, which is where `append` pushes):
1. filtered nodes are dropped;
2. at `d ≥ max_depth` the node is inserted as a dependency-free leaf if not
   already a key;
3. a node that is already a key sets the cycle flag;
4. otherwise the node's dependency list is obtained: on success the node's
   adjacency list becomes the filtered dependency list, and each appended
   dependency that is not yet a key (note: `n` itself is a key by then) is
   pushed at depth `d + 1`, the last push ending on top; on failure the
   node is inserted as a dependency-free leaf.

The first argument is fuel; the fuel-exhaustion branch returns the current
state and is unreachable for the fuel supplied by the entry points. -/
def dfsLoop (maxDepth : Nat) (filt : String) (deps : String → Option (List String)) :
    Nat → List (String × Nat) → Graph → Bool → BuildResult
  | _, [], g, cyc => ⟨g, cyc, []⟩
  | 0, _ :: _, g, cyc => ⟨g, cyc, []⟩
  | fuel + 1, (n, d) :: rest, g, cyc =>
    let wk := containsKey g n
    if should_skip_package filt n then
      withEvent ⟨n, d, wk, .skipped⟩ (dfsLoop maxDepth filt deps fuel rest g cyc)
    else if maxDepth ≤ d then
      withEvent ⟨n, d, wk, .truncated⟩
        (dfsLoop maxDepth filt deps fuel rest (if wk then g else g ++ [(n, [])]) cyc)
    else if wk then
      withEvent ⟨n, d, wk, .cycleHit⟩ (dfsLoop maxDepth filt deps fuel rest g true)
    else
      match deps n with
      | some ds =>
        let adj := ds.filter (fun m => !(should_skip_package filt m))
        let pushed := adj.filter (fun m => !(containsKey g m || m == n))
        withEvent ⟨n, d, wk, .expanded⟩
          (dfsLoop maxDepth filt deps fuel
            (pushed.foldl (fun st m => (m, d + 1) :: st) rest) (g ++ [(n, adj)]) cyc)
      | none =>
        withEvent ⟨n, d, wk, .failed⟩
          (dfsLoop maxDepth filt deps fuel rest (g ++ [(n, [])]) cyc)

/-- An upper bound on the number of loop iterations spent on one stack
entry whose node is `n` and whose remaining depth budget is `r`: the entry
itself plus, recursively, bounds for every dependency it can push. -/
def nodeBound (deps : String → Option (List String)) : Nat → String → Nat
  | 0, _ => 1
  | r + 1, n => 1 + (((deps n).getD []).map (nodeBound deps r)).sum

/-- Total iteration bound for a whole stack. -/
def stackMeasure (deps : String → Option (List String)) (maxDepth : Nat)
    (st : List (String × Nat)) : Nat :=
  (st.map (fun p => nodeBound deps (maxDepth - p.2) p.1)).sum

/-- analyzer.py lines 69-113: build the dependency graph from a start
package by the explicit-stack DFS, obtaining each node's direct
dependencies from `fetch` (the composite of `get_package_info` and
`extract_dependencies`; `none` models a raised/caught fetch error).  The
loop starts from stack `[(start, 0)]`, empty graph and a false cycle flag
(the flag is reset by `analyze_dependencies` before each build). -/
def dfs_build_dependency_graph (cfg : Config) (fetch : String → Option (List String))
    (start_package : String) : BuildResult :=
  dfsLoop cfg.max_depth cfg.filter_substring fetch
    (stackMeasure fetch cfg.max_depth [(start_package, 0)]) [(start_package, 0)] [] false

/-- analyzer.py lines 124-165: identical loop, with the dependency list of
a popped node looked up in the static test graph; absence from the test
graph takes the leaf branch exactly as a failed fetch does. -/
def dfs_build_from_test_graph (cfg : Config) (start_package : String)
    (test_graph : Graph) : BuildResult :=
  dfs_build_dependency_graph cfg (fun n => List.lookup n test_graph) start_package

/-- Iteration bound for the reverse-dependency scan: current stack length
plus, for every graph entry whose key is not yet visited, one processing
step and one push per dependency. -/
def revMeasure (g : Graph) (visited : List String) (stack : List String) : Nat :=
  stack.length +
    ((g.filter (fun p => !(visited.contains p.1))).map (fun p => 1 + p.2.length)).sum

/-- The while-loop of `find_reverse_dependencies` (analyzer.py lines
184-199).  Pop `n` (head = right end of the deque); skip it if already
visited, otherwise mark it visited, append it to the result if it is a key
whose adjacency list contains the target, and push its not-yet-visited
dependencies.  Fuel-exhaustion returns the accumulated result and is
unreachable for the fuel supplied by `find_reverse_dependencies`. -/
def revLoop (g : Graph) (target : String) :
    Nat → List String → List String → List String → List String
  | _, [], _, acc => acc
  | 0, _ :: _, _, acc => acc
  | fuel + 1, n :: rest, visited, acc =>
    if visited.contains n then revLoop g target fuel rest visited acc
    else
      let visited' := visited ++ [n]
      match List.lookup n g with
      | some ds =>
        let acc' := if ds.contains target then acc ++ [n] else acc
        revLoop g target fuel
          ((ds.filter (fun m => !(visited'.contains m))).foldl (fun st m => m :: st) rest)
          visited' acc'
      | none => revLoop g target fuel rest visited' acc

/-- analyzer.py lines 178-201: scan the whole graph, seeded with every key
(the deque pops the right end, hence the reversed key list), and collect in
discovery order the nodes whose adjacency list contains the target. -/
def find_reverse_dependencies (target_package : String) (g : Graph) : List String :=
  revLoop g target_package (revMeasure g [] (graphKeys g).reverse)
    (graphKeys g).reverse [] []

/-- analyzer.py lines 167-176: copy the test graph and add every test-graph
key that is missing from the copy (a no-op, since the copy already has all
of them); kept literal. -/
def build_full_test_graph (test_graph : Graph) (_start_package : String) : Graph :=
  (graphKeys test_graph).foldl
    (fun fg p => if containsKey fg p then fg else fg ++ [(p, [])]) test_graph

/-- Result of `analyze_dependencies`: the returned graph, the stored
`self.full_graph`, the cycle flag and the ghost trace. -/
structure AnalyzeResult where
  graph : Graph
  full_graph : Graph
  cycle_detected : Bool
  trace : List PopEvent
deriving DecidableEq

/-- analyzer.py lines 203-234: fail if the package name is falsy, otherwise
build either from the static test graph (mode "local" with a ".json"
repository url; `full_graph` then becomes the whole test graph) or from the
registry (`full_graph` is `{}` updated with the built graph, i.e. the built
graph).  The cycle flag is reset before the build.  The registry fetch and
the loaded test-file content are passed as parameters, standing for the
network and file-system collaborators. -/
def analyze_dependencies (cfg : Config) (fetch : String → Option (List String))
    (test_data : Graph) : Except String AnalyzeResult :=
  if cfg.package_name == "" then
    .error "package name missing from configuration"
  else if cfg.test_repo_mode == "local" && cfg.repository_url.endsWith ".json" then
    let r := dfs_build_from_test_graph cfg cfg.package_name test_data
    .ok ⟨r.graph, build_full_test_graph test_data cfg.package_name, r.cycle_detected, r.trace⟩
  else
    let r := dfs_build_dependency_graph cfg fetch cfg.package_name
    .ok ⟨r.graph, r.graph, r.cycle_detected, r.trace⟩

/-- analyzer.py lines 236-246: raise the state error when the stored full
graph is falsy (Python's `if not self.full_graph` — an empty dict is
falsy), otherwise run the reverse-dependency scan. -/
def analyze_reverse_dependencies (full_graph : Graph) (target_package : String) :
    Except String (List String) :=
  if full_graph.isEmpty then
    .error "graph not built; run analyze_dependencies first"
  else
    .ok (find_reverse_dependencies target_package full_graph)

/-- A pop event that inserts its node as a new key of the graph: an
expansion, a failure leaf, or a truncation of a node that was not yet a
key (ghost notion used by the uniqueness lemmas). -/
def isKeying (e : PopEvent) : Bool :=
  match e.branch with
  | .truncated => !e.wasKey
  | .expanded => true
  | .failed => true
  | _ => false

/-! ### Concrete scenario data used by counterexamples and witnesses -/

/-- A registry fetch that fails on every package. -/
def failFetch : String → Option (List String) := fun _ => none

/-- Scenario 2 of spec section 8: the static source graph with the
back-edge C to A. -/
def srcCycleScenario : Graph :=
  [("A", ["B"]), ("B", ["C"]), ("C", ["A", "D"]), ("D", ["E"]), ("E", [])]

/-- Scenario 2 configuration: depth 5, no filter, local mode. -/
def cfgCycleScenario : Config := ⟨"A", "test_repo.json", "local", 5, ""⟩

/-- Registry-mode configuration with start package A, depth 3, no filter. -/
def cfgRegistryA : Config := ⟨"A", "https-registry", "remote", 3, ""⟩

/-- A two-level static chain used to exercise truncation at depth 1. -/
def fetchChain : String → Option (List String) :=
  fun n => List.lookup n [("A", ["B"]), ("B", ["C"])]

/-- Registry-mode configuration with depth bound 1. -/
def cfgDepthOne : Config := ⟨"A", "https-registry", "remote", 1, ""⟩

/-- Registry-mode configuration whose filter substring is X. -/
def cfgFilterX : Config := ⟨"A", "https-registry", "remote", 3, "X"⟩

/-- A fetch that always reports the dependencies B and XB (the latter is
caught by the X filter). -/
def fetchWithExcluded : String → Option (List String) := fun _ => some ["B", "XB"]

/-- Registry-mode configuration whose filter substring equals the start
package A, so the start itself is excluded. -/
def cfgExcludedStart : Config := ⟨"A", "https-registry", "remote", 3, "A"⟩

/-- A fetch that always reports the single dependency Z (never consulted
when the start node is excluded). -/
def fetchConstZ : String → Option (List String) := fun _ => some ["Z"]

/-- Local-mode configuration whose start package X is absent from the
loaded test graph. -/
def cfgMissingStart : Config := ⟨"X", "test_repo.json", "local", 3, ""⟩

/-- Edge relation of a static source graph: `srcEdge src a b` holds when
b occurs in the adjacency list stored for a. -/
def srcEdge (src : Graph) (a b : String) : Prop :=
  ∃ ds, List.lookup a src = some ds ∧ b ∈ ds

/-- A source graph with a key (B) unreachable from the start A. -/
def srcDisconnected : Graph := [("A", []), ("B", [])]

/-- Local-mode configuration with a depth bound (10) far larger than the
transitive closure of `srcDisconnected`. -/
def cfgRoundTrip10 : Config := ⟨"A", "test_repo.json", "local", 10, ""⟩

/-- Scenario 1 of spec section 8: the acyclic source tree rooted at A. -/
def srcTreeScenario : Graph :=
  [("A", ["B", "C"]), ("B", ["D", "E"]), ("C", ["F"]), ("D", []), ("E", ["G"]),
   ("F", []), ("G", [])]

/-- Local-mode configuration for the round-trip witness: depth 8 exceeds
the seven keys of `srcTreeScenario`. -/
def cfgTreeDepth8 : Config := ⟨"A", "test_repo.json", "local", 8, ""⟩

/-! ### Basic lemmas about graphs as association lists -/

theorem graphKeys_append (g g' : Graph) :
    graphKeys (g ++ g') = graphKeys g ++ graphKeys g' := by
  simp [graphKeys]

theorem containsKey_iff {g : Graph} {n : String} :
    containsKey g n = true ↔ n ∈ graphKeys g := by
  simp [containsKey, List.contains_eq_any_beq, List.any_eq_true, eq_comm]

theorem containsKey_append_single {g : Graph} {k n : String} {v : List String} :
    containsKey (g ++ [(k, v)]) n = (containsKey g n || n == k) := by
  simp only [containsKey, graphKeys_append, List.contains_eq_any_beq, List.any_append]
  simp [graphKeys]

theorem containsKey_mono {g : Graph} {n : String} (ext : Graph)
    (h : containsKey g n = true) : containsKey (g ++ ext) n = true := by
  rw [containsKey_iff] at h ⊢
  rw [graphKeys_append]
  exact List.mem_append_left _ h

theorem mem_graphKeys_of_mem {g : Graph} {p : String × List String} (h : p ∈ g) :
    p.1 ∈ graphKeys g := List.mem_map_of_mem Prod.fst h

theorem mem_of_lookup_eq_some {g : Graph} {k : String} {v : List String}
    (h : List.lookup k g = some v) : (k, v) ∈ g := by
  induction g with
  | nil => simp at h
  | cons p t ih =>
    obtain ⟨pk, pv⟩ := p
    rcases hk : (k == pk) with _ | _
    · simp only [List.lookup, hk] at h
      exact List.mem_cons_of_mem _ (ih h)
    · simp only [List.lookup, hk, Option.some.injEq] at h
      have hk' : k = pk := by simpa using hk
      rw [hk', h]
      exact List.mem_cons_self _ _

theorem lookup_isSome_of_containsKey {g : Graph} {k : String}
    (h : containsKey g k = true) : (List.lookup k g).isSome = true := by
  induction g with
  | nil => simp [containsKey, graphKeys] at h
  | cons p t ih =>
    obtain ⟨pk, pv⟩ := p
    rcases hk : (k == pk) with _ | _
    · simp only [List.lookup, hk]
      apply ih
      rw [containsKey_iff] at h ⊢
      simp only [graphKeys, List.map_cons, List.mem_cons] at h
      rcases h with h | h
      · subst h
        simp at hk
      · exact h
    · simp [List.lookup, hk]

theorem containsKey_of_lookup_eq_some {g : Graph} {k : String} {v : List String}
    (h : List.lookup k g = some v) : containsKey g k = true := by
  rw [containsKey_iff]
  exact mem_graphKeys_of_mem (mem_of_lookup_eq_some h)

theorem lookup_eq_some_of_mem_nodup {g : Graph} {k : String} {v : List String}
    (hnd : (graphKeys g).Nodup) (h : (k, v) ∈ g) : List.lookup k g = some v := by
  induction g with
  | nil => simp at h
  | cons p t ih =>
    simp only [graphKeys, List.map_cons, List.nodup_cons] at hnd
    rcases List.mem_cons.mp h with heq | hmem
    · obtain ⟨pk, pv⟩ := p
      cases heq
      simp [List.lookup]
    · have hk : (k == p.1) = false := by
        rcases hbe : (k == p.1) with _ | _
        · rfl
        · exfalso
          have : k = p.1 := by simpa using hbe
          exact hnd.1 (this ▸ mem_graphKeys_of_mem hmem)
      obtain ⟨pk, pv⟩ := p
      simp only [List.lookup, hk]
      exact ih hnd.2 hmem

/-! ### The stack push fold and the iteration measure -/

theorem foldl_push_eq (pushed : List String) (rest : List (String × Nat)) (d : Nat) :
    pushed.foldl (fun st m => (m, d) :: st) rest =
      (pushed.map (fun m => (m, d))).reverse ++ rest := by
  induction pushed generalizing rest with
  | nil => simp
  | cons x xs ih => simp [List.foldl_cons, ih]

theorem mem_foldl_push {pushed : List String} {rest : List (String × Nat)} {d : Nat}
    {p : String × Nat} (h : p ∈ rest) :
    p ∈ pushed.foldl (fun st m => (m, d) :: st) rest := by
  rw [foldl_push_eq]
  exact List.mem_append_right _ h

theorem mem_of_mem_foldl_push {pushed : List String} {rest : List (String × Nat)} {d : Nat}
    {p : String × Nat} (h : p ∈ pushed.foldl (fun st m => (m, d) :: st) rest) :
    (p.1 ∈ pushed ∧ p.2 = d) ∨ p ∈ rest := by
  rw [foldl_push_eq] at h
  rcases List.mem_append.mp h with h | h
  · rw [List.mem_reverse, List.mem_map] at h
    obtain ⟨m, hm, hp⟩ := h
    subst hp
    exact Or.inl ⟨hm, rfl⟩
  · exact Or.inr h

theorem sum_map_filter_le {α : Type} (l : List α) (p : α → Bool) (f : α → Nat) :
    ((l.filter p).map f).sum ≤ (l.map f).sum := by
  induction l with
  | nil => simp
  | cons x xs ih =>
    by_cases hx : p x = true <;> simp [List.filter_cons, hx] <;> omega

theorem nodeBound_pos (deps : String → Option (List String)) (r : Nat) (n : String) :
    1 ≤ nodeBound deps r n := by
  cases r <;> simp [nodeBound]

theorem stackMeasure_nil (deps : String → Option (List String)) (maxDepth : Nat) :
    stackMeasure deps maxDepth [] = 0 := rfl

theorem stackMeasure_cons (deps : String → Option (List String)) (maxDepth : Nat)
    (p : String × Nat) (rest : List (String × Nat)) :
    stackMeasure deps maxDepth (p :: rest) =
      nodeBound deps (maxDepth - p.2) p.1 + stackMeasure deps maxDepth rest := by
  simp [stackMeasure]

theorem stackMeasure_pair_cons (deps : String → Option (List String)) (maxDepth : Nat)
    (n : String) (d : Nat) (rest : List (String × Nat)) :
    stackMeasure deps maxDepth ((n, d) :: rest) =
      nodeBound deps (maxDepth - d) n + stackMeasure deps maxDepth rest := by
  simp [stackMeasure]

theorem stackMeasure_tail_le {deps : String → Option (List String)} {maxDepth fuel : Nat}
    {p : String × Nat} {rest : List (String × Nat)}
    (h : stackMeasure deps maxDepth (p :: rest) ≤ fuel + 1) :
    stackMeasure deps maxDepth rest ≤ fuel := by
  rw [stackMeasure_cons] at h
  have := nodeBound_pos deps (maxDepth - p.2) p.1
  omega

theorem stackMeasure_foldl_push (deps : String → Option (List String)) (maxDepth : Nat)
    (pushed : List String) (rest : List (String × Nat)) (d : Nat) :
    stackMeasure deps maxDepth (pushed.foldl (fun st m => (m, d) :: st) rest) =
      (pushed.map (nodeBound deps (maxDepth - d))).sum + stackMeasure deps maxDepth rest := by
  rw [foldl_push_eq]
  simp only [stackMeasure, List.map_append, List.sum_append, List.map_reverse,
    List.sum_reverse, List.map_map]
  congr 1

theorem stackMeasure_push_le {deps : String → Option (List String)} {maxDepth fuel d : Nat}
    {n : String} {ds pushed : List String} {rest : List (String × Nat)}
    (hfuel : stackMeasure deps maxDepth ((n, d) :: rest) ≤ fuel + 1)
    (hd : d < maxDepth) (hds : deps n = some ds)
    (hsubsum : (pushed.map (nodeBound deps (maxDepth - (d + 1)))).sum ≤
      (ds.map (nodeBound deps (maxDepth - (d + 1)))).sum) :
    stackMeasure deps maxDepth (pushed.foldl (fun st m => (m, d + 1) :: st) rest) ≤ fuel := by
  rw [stackMeasure_foldl_push]
  rw [stackMeasure_pair_cons] at hfuel
  have hr : maxDepth - d = (maxDepth - (d + 1)) + 1 := by omega
  have hnb : nodeBound deps (maxDepth - d) n =
      1 + (ds.map (nodeBound deps (maxDepth - (d + 1)))).sum := by
    rw [hr]
    simp [nodeBound, hds]
  omega

/-! ### Branch equations for the build loop -/

theorem dfsLoop_nil (maxDepth : Nat) (filt : String) (deps : String → Option (List String))
    (fuel : Nat) (g : Graph) (cyc : Bool) :
    dfsLoop maxDepth filt deps fuel [] g cyc = ⟨g, cyc, []⟩ := by
  cases fuel <;> rfl

theorem dfsLoop_skip {maxDepth : Nat} {filt : String} {deps : String → Option (List String)}
    {fuel d : Nat} {n : String} {rest : List (String × Nat)} {g : Graph} {cyc : Bool}
    (h : should_skip_package filt n = true) :
    dfsLoop maxDepth filt deps (fuel + 1) ((n, d) :: rest) g cyc =
      withEvent ⟨n, d, containsKey g n, .skipped⟩
        (dfsLoop maxDepth filt deps fuel rest g cyc) := by
  simp [dfsLoop, h]

theorem dfsLoop_trunc {maxDepth : Nat} {filt : String} {deps : String → Option (List String)}
    {fuel d : Nat} {n : String} {rest : List (String × Nat)} {g : Graph} {cyc : Bool}
    (h1 : should_skip_package filt n = false) (h2 : maxDepth ≤ d) :
    dfsLoop maxDepth filt deps (fuel + 1) ((n, d) :: rest) g cyc =
      withEvent ⟨n, d, containsKey g n, .truncated⟩
        (dfsLoop maxDepth filt deps fuel rest
          (if containsKey g n then g else g ++ [(n, [])]) cyc) := by
  simp [dfsLoop, h1, h2]

theorem dfsLoop_cycle {maxDepth : Nat} {filt : String} {deps : String → Option (List String)}
    {fuel d : Nat} {n : String} {rest : List (String × Nat)} {g : Graph} {cyc : Bool}
    (h1 : should_skip_package filt n = false) (h2 : ¬ maxDepth ≤ d)
    (h3 : containsKey g n = true) :
    dfsLoop maxDepth filt deps (fuel + 1) ((n, d) :: rest) g cyc =
      withEvent ⟨n, d, true, .cycleHit⟩
        (dfsLoop maxDepth filt deps fuel rest g true) := by
  simp [dfsLoop, h1, h2, h3]

theorem dfsLoop_expand {maxDepth : Nat} {filt : String} {deps : String → Option (List String)}
    {fuel d : Nat} {n : String} {rest : List (String × Nat)} {g : Graph} {cyc : Bool}
    {ds : List String}
    (h1 : should_skip_package filt n = false) (h2 : ¬ maxDepth ≤ d)
    (h3 : containsKey g n = false) (h4 : deps n = some ds) :
    dfsLoop maxDepth filt deps (fuel + 1) ((n, d) :: rest) g cyc =
      withEvent ⟨n, d, false, .expanded⟩
        (dfsLoop maxDepth filt deps fuel
          (((ds.filter (fun m => !(should_skip_package filt m))).filter
              (fun m => !(containsKey g m || m == n))).foldl
            (fun st m => (m, d + 1) :: st) rest)
          (g ++ [(n, ds.filter (fun m => !(should_skip_package filt m)))]) cyc) := by
  simp [dfsLoop, h1, h2, h3, h4]

theorem dfsLoop_fail {maxDepth : Nat} {filt : String} {deps : String → Option (List String)}
    {fuel d : Nat} {n : String} {rest : List (String × Nat)} {g : Graph} {cyc : Bool}
    (h1 : should_skip_package filt n = false) (h2 : ¬ maxDepth ≤ d)
    (h3 : containsKey g n = false) (h4 : deps n = none) :
    dfsLoop maxDepth filt deps (fuel + 1) ((n, d) :: rest) g cyc =
      withEvent ⟨n, d, false, .failed⟩
        (dfsLoop maxDepth filt deps fuel rest (g ++ [(n, [])]) cyc) := by
  simp [dfsLoop, h1, h2, h3, h4]

/-! ### Invariants of the build loop -/

theorem withEvent_graph (e : PopEvent) (r : BuildResult) :
    (withEvent e r).graph = r.graph := rfl

theorem withEvent_cycle (e : PopEvent) (r : BuildResult) :
    (withEvent e r).cycle_detected = r.cycle_detected := rfl

theorem withEvent_trace (e : PopEvent) (r : BuildResult) :
    (withEvent e r).trace = e :: r.trace := rfl

theorem not_mem_graphKeys_of_containsKey_false {g : Graph} {n : String}
    (h : containsKey g n = false) : n ∉ graphKeys g := by
  intro hm
  rw [← containsKey_iff] at hm
  rw [h] at hm
  exact Bool.false_ne_true hm

theorem nodup_keys_append_single {g : Graph} {n : String} {v : List String}
    (hnd : (graphKeys g).Nodup) (h : containsKey g n = false) :
    (graphKeys (g ++ [(n, v)])).Nodup := by
  rw [graphKeys_append]
  simp only [graphKeys, List.map_cons, List.map_nil]
  rw [List.nodup_append]
  refine ⟨hnd, List.nodup_singleton n, ?_⟩
  intro a ha hx
  rw [List.mem_singleton] at hx
  rw [hx] at ha
  exact not_mem_graphKeys_of_containsKey_false h ha

theorem mem_keys_append_single {g : Graph} {n k : String} {v : List String}
    (h : k ∈ graphKeys (g ++ [(n, v)])) : k ∈ graphKeys g ∨ k = n := by
  rw [graphKeys_append] at h
  rcases List.mem_append.mp h with h | h
  · exact Or.inl h
  · right
    simpa [graphKeys] using h

theorem containsKey_append_single_cases {g : Graph} {n k : String} {v : List String}
    (h : containsKey (g ++ [(n, v)]) k = true) : containsKey g k = true ∨ k = n := by
  rw [containsKey_iff] at h
  rcases mem_keys_append_single h with h | h
  · exact Or.inl (containsKey_iff.mpr h)
  · exact Or.inr h

/-- The graph only grows (by appending) along the build loop. -/
theorem dfsLoop_graph_ext (maxDepth : Nat) (filt : String)
    (deps : String → Option (List String)) (fuel : Nat) (st : List (String × Nat))
    (g : Graph) (cyc : Bool) :
    ∃ ext, (dfsLoop maxDepth filt deps fuel st g cyc).graph = g ++ ext := by
  induction fuel generalizing st g cyc with
  | zero =>
    cases st with
    | nil => exact ⟨[], by rw [dfsLoop_nil]; simp⟩
    | cons p rest => exact ⟨[], by simp [dfsLoop]⟩
  | succ fuel ih =>
    cases st with
    | nil => exact ⟨[], by rw [dfsLoop_nil]; simp⟩
    | cons p rest =>
      obtain ⟨n, d⟩ := p
      by_cases h1 : should_skip_package filt n = true
      · rw [dfsLoop_skip h1, withEvent_graph]
        exact ih rest g cyc
      · have h1' : should_skip_package filt n = false := by
          simpa using h1
        by_cases h2 : maxDepth ≤ d
        · rw [dfsLoop_trunc h1' h2, withEvent_graph]
          by_cases hwk : containsKey g n = true
          · rw [if_pos hwk]
            exact ih rest g cyc
          · rw [if_neg hwk]
            obtain ⟨ext, hext⟩ := ih rest (g ++ [(n, [])]) cyc
            exact ⟨[(n, [])] ++ ext, by rw [hext, List.append_assoc]⟩
        · by_cases h3 : containsKey g n = true
          · rw [dfsLoop_cycle h1' h2 h3, withEvent_graph]
            exact ih rest g true
          · have h3' : containsKey g n = false := by simpa using h3
            rcases h4 : deps n with _ | ds
            · rw [dfsLoop_fail h1' h2 h3' h4, withEvent_graph]
              obtain ⟨ext, hext⟩ := ih rest (g ++ [(n, [])]) cyc
              exact ⟨[(n, [])] ++ ext, by rw [hext, List.append_assoc]⟩
            · rw [dfsLoop_expand h1' h2 h3' h4, withEvent_graph]
              obtain ⟨ext, hext⟩ := ih _ _ cyc
              exact ⟨[(n, ds.filter (fun m => !(should_skip_package filt m)))] ++ ext,
                by rw [hext, List.append_assoc]⟩

theorem dfsLoop_mem_graph_mono {maxDepth : Nat} {filt : String}
    {deps : String → Option (List String)} {fuel : Nat} {st : List (String × Nat)}
    {g : Graph} {cyc : Bool} {p : String × List String} (h : p ∈ g) :
    p ∈ (dfsLoop maxDepth filt deps fuel st g cyc).graph := by
  obtain ⟨ext, hext⟩ := dfsLoop_graph_ext maxDepth filt deps fuel st g cyc
  rw [hext]
  exact List.mem_append_left _ h

theorem dfsLoop_containsKey_mono {maxDepth : Nat} {filt : String}
    {deps : String → Option (List String)} {fuel : Nat} {st : List (String × Nat)}
    {g : Graph} {cyc : Bool} {n : String} (h : containsKey g n = true) :
    containsKey (dfsLoop maxDepth filt deps fuel st g cyc).graph n = true := by
  obtain ⟨ext, hext⟩ := dfsLoop_graph_ext maxDepth filt deps fuel st g cyc
  rw [hext]
  exact containsKey_mono ext h

/-- Key sets stay duplicate-free along the build loop. -/
theorem dfsLoop_keys_nodup {maxDepth : Nat} {filt : String}
    {deps : String → Option (List String)} (fuel : Nat) (st : List (String × Nat))
    (g : Graph) (cyc : Bool) (hnd : (graphKeys g).Nodup) :
    (graphKeys (dfsLoop maxDepth filt deps fuel st g cyc).graph).Nodup := by
  induction fuel generalizing st g cyc with
  | zero =>
    cases st with
    | nil => rw [dfsLoop_nil]; exact hnd
    | cons p rest => simpa [dfsLoop] using hnd
  | succ fuel ih =>
    cases st with
    | nil => rw [dfsLoop_nil]; exact hnd
    | cons p rest =>
      obtain ⟨n, d⟩ := p
      by_cases h1 : should_skip_package filt n = true
      · rw [dfsLoop_skip h1, withEvent_graph]
        exact ih rest g cyc hnd
      · have h1' : should_skip_package filt n = false := by simpa using h1
        by_cases h2 : maxDepth ≤ d
        · rw [dfsLoop_trunc h1' h2, withEvent_graph]
          by_cases hwk : containsKey g n = true
          · rw [if_pos hwk]
            exact ih rest g cyc hnd
          · rw [if_neg hwk]
            have hwk' : containsKey g n = false := by simpa using hwk
            exact ih rest _ cyc (nodup_keys_append_single hnd hwk')
        · by_cases h3 : containsKey g n = true
          · rw [dfsLoop_cycle h1' h2 h3, withEvent_graph]
            exact ih rest g true hnd
          · have h3' : containsKey g n = false := by simpa using h3
            rcases h4 : deps n with _ | ds
            · rw [dfsLoop_fail h1' h2 h3' h4, withEvent_graph]
              exact ih rest _ cyc (nodup_keys_append_single hnd h3')
            · rw [dfsLoop_expand h1' h2 h3' h4, withEvent_graph]
              exact ih _ _ cyc (nodup_keys_append_single hnd h3')

/-- Every key of every intermediate (hence the final) graph survives the
filter: the loop never inserts a skipped node. -/
theorem dfsLoop_keys_not_skipped {maxDepth : Nat} {filt : String}
    {deps : String → Option (List String)} (fuel : Nat) (st : List (String × Nat))
    (g : Graph) (cyc : Bool)
    (hkeys : ∀ k ∈ graphKeys g, should_skip_package filt k = false) :
    ∀ k ∈ graphKeys (dfsLoop maxDepth filt deps fuel st g cyc).graph,
      should_skip_package filt k = false := by
  induction fuel generalizing st g cyc with
  | zero =>
    cases st with
    | nil => rw [dfsLoop_nil]; exact hkeys
    | cons p rest => simpa [dfsLoop] using hkeys
  | succ fuel ih =>
    cases st with
    | nil => rw [dfsLoop_nil]; exact hkeys
    | cons p rest =>
      obtain ⟨n, d⟩ := p
      by_cases h1 : should_skip_package filt n = true
      · rw [dfsLoop_skip h1, withEvent_graph]
        exact ih rest g cyc hkeys
      · have h1' : should_skip_package filt n = false := by simpa using h1
        have hkeys' : ∀ (v : List String),
            ∀ k ∈ graphKeys (g ++ [(n, v)]), should_skip_package filt k = false := by
          intro v k hk
          rcases mem_keys_append_single hk with hk | hk
          · exact hkeys k hk
          · rw [hk]; exact h1'
        by_cases h2 : maxDepth ≤ d
        · rw [dfsLoop_trunc h1' h2, withEvent_graph]
          by_cases hwk : containsKey g n = true
          · rw [if_pos hwk]
            exact ih rest g cyc hkeys
          · rw [if_neg hwk]
            exact ih rest _ cyc (hkeys' [])
        · by_cases h3 : containsKey g n = true
          · rw [dfsLoop_cycle h1' h2 h3, withEvent_graph]
            exact ih rest g true hkeys
          · have h3' : containsKey g n = false := by simpa using h3
            rcases h4 : deps n with _ | ds
            · rw [dfsLoop_fail h1' h2 h3' h4, withEvent_graph]
              exact ih rest _ cyc (hkeys' [])
            · rw [dfsLoop_expand h1' h2 h3' h4, withEvent_graph]
              exact ih _ _ cyc (hkeys' _)

/-- No adjacency list of any intermediate (hence the final) graph contains
a skipped node: dependencies are filtered before being appended. -/
theorem dfsLoop_adj_not_skipped {maxDepth : Nat} {filt : String}
    {deps : String → Option (List String)} (fuel : Nat) (st : List (String × Nat))
    (g : Graph) (cyc : Bool)
    (hadj : ∀ p ∈ g, ∀ m ∈ p.2, should_skip_package filt m = false) :
    ∀ p ∈ (dfsLoop maxDepth filt deps fuel st g cyc).graph,
      ∀ m ∈ p.2, should_skip_package filt m = false := by
  induction fuel generalizing st g cyc with
  | zero =>
    cases st with
    | nil => rw [dfsLoop_nil]; exact hadj
    | cons p rest => simpa [dfsLoop] using hadj
  | succ fuel ih =>
    cases st with
    | nil => rw [dfsLoop_nil]; exact hadj
    | cons p rest =>
      obtain ⟨n, d⟩ := p
      have hleaf : ∀ p ∈ g ++ [(n, [])], ∀ m ∈ p.2,
          should_skip_package filt m = false := by
        intro p hp m hm
        rcases List.mem_append.mp hp with hp | hp
        · exact hadj p hp m hm
        · rw [List.mem_singleton] at hp
          rw [hp] at hm
          simp at hm
      by_cases h1 : should_skip_package filt n = true
      · rw [dfsLoop_skip h1, withEvent_graph]
        exact ih rest g cyc hadj
      · have h1' : should_skip_package filt n = false := by simpa using h1
        by_cases h2 : maxDepth ≤ d
        · rw [dfsLoop_trunc h1' h2, withEvent_graph]
          by_cases hwk : containsKey g n = true
          · rw [if_pos hwk]
            exact ih rest g cyc hadj
          · rw [if_neg hwk]
            exact ih rest _ cyc hleaf
        · by_cases h3 : containsKey g n = true
          · rw [dfsLoop_cycle h1' h2 h3, withEvent_graph]
            exact ih rest g true hadj
          · have h3' : containsKey g n = false := by simpa using h3
            rcases h4 : deps n with _ | ds
            · rw [dfsLoop_fail h1' h2 h3' h4, withEvent_graph]
              exact ih rest _ cyc hleaf
            · rw [dfsLoop_expand h1' h2 h3' h4, withEvent_graph]
              apply ih
              intro p hp m hm
              rcases List.mem_append.mp hp with hp | hp
              · exact hadj p hp m hm
              · rw [List.mem_singleton] at hp
                rw [hp] at hm
                simp only at hm
                have := List.mem_filter.mp hm
                simpa using this.2

/-- The final cycle flag is the initial one, or some pop took the
already-a-key branch. -/
theorem dfsLoop_cycle_iff (maxDepth : Nat) (filt : String)
    (deps : String → Option (List String)) (fuel : Nat) (st : List (String × Nat))
    (g : Graph) (cyc : Bool) :
    (dfsLoop maxDepth filt deps fuel st g cyc).cycle_detected = true ↔
      cyc = true ∨ ∃ e ∈ (dfsLoop maxDepth filt deps fuel st g cyc).trace,
        e.branch = StepBranch.cycleHit := by
  induction fuel generalizing st g cyc with
  | zero =>
    cases st with
    | nil => rw [dfsLoop_nil]; simp
    | cons p rest => simp [dfsLoop]
  | succ fuel ih =>
    cases st with
    | nil => rw [dfsLoop_nil]; simp
    | cons p rest =>
      obtain ⟨n, d⟩ := p
      by_cases h1 : should_skip_package filt n = true
      · rw [dfsLoop_skip h1, withEvent_cycle, withEvent_trace]
        rw [ih rest g cyc]
        simp
      · have h1' : should_skip_package filt n = false := by simpa using h1
        by_cases h2 : maxDepth ≤ d
        · rw [dfsLoop_trunc h1' h2, withEvent_cycle, withEvent_trace]
          rw [ih rest _ cyc]
          simp
        · by_cases h3 : containsKey g n = true
          · rw [dfsLoop_cycle h1' h2 h3, withEvent_cycle, withEvent_trace]
            rw [ih rest g true]
            simp
          · have h3' : containsKey g n = false := by simpa using h3
            rcases h4 : deps n with _ | ds
            · rw [dfsLoop_fail h1' h2 h3' h4, withEvent_cycle, withEvent_trace]
              rw [ih rest _ cyc]
              simp
            · rw [dfsLoop_expand h1' h2 h3' h4, withEvent_cycle, withEvent_trace]
              rw [ih _ _ cyc]
              simp

/-- Branch bookkeeping for every pop event of a run whose starting graph
has no skipped keys: the cycle branch fires exactly on the pops of an
already-present key below the depth bound, failures carry a failing fetch,
expansions a successful one, truncations sit at or above the depth bound. -/
theorem dfsLoop_event_facts {maxDepth : Nat} {filt : String}
    {deps : String → Option (List String)} (fuel : Nat) (st : List (String × Nat))
    (g : Graph) (cyc : Bool)
    (hkeys : ∀ k ∈ graphKeys g, should_skip_package filt k = false) :
    ∀ e ∈ (dfsLoop maxDepth filt deps fuel st g cyc).trace,
      (e.branch = StepBranch.cycleHit → e.wasKey = true ∧ e.depth < maxDepth) ∧
      (e.wasKey = true → e.depth < maxDepth → e.branch = StepBranch.cycleHit) ∧
      (e.branch = StepBranch.failed → deps e.node = none ∧ e.wasKey = false) ∧
      (e.branch = StepBranch.expanded → e.wasKey = false ∧ (deps e.node).isSome = true) ∧
      (e.branch = StepBranch.truncated → maxDepth ≤ e.depth) := by
  induction fuel generalizing st g cyc with
  | zero =>
    cases st with
    | nil => rw [dfsLoop_nil]; intro e he; simp at he
    | cons p rest => intro e he; simp [dfsLoop] at he
  | succ fuel ih =>
    cases st with
    | nil => rw [dfsLoop_nil]; intro e he; simp at he
    | cons p rest =>
      obtain ⟨n, d⟩ := p
      by_cases h1 : should_skip_package filt n = true
      · have hwk : containsKey g n = false := by
          by_cases hc : containsKey g n = true
          · exact absurd h1 (by rw [hkeys n (containsKey_iff.mp hc)]; simp)
          · simpa using hc
        rw [dfsLoop_skip h1, withEvent_trace, hwk]
        intro e he
        rcases List.mem_cons.mp he with he | he
        · subst he
          simp
        · exact ih rest g cyc hkeys e he
      · have h1' : should_skip_package filt n = false := by simpa using h1
        have hkeys' : ∀ (v : List String),
            ∀ k ∈ graphKeys (g ++ [(n, v)]), should_skip_package filt k = false := by
          intro v k hk
          rcases mem_keys_append_single hk with hk | hk
          · exact hkeys k hk
          · rw [hk]; exact h1'
        by_cases h2 : maxDepth ≤ d
        · rw [dfsLoop_trunc h1' h2, withEvent_trace]
          intro e he
          rcases List.mem_cons.mp he with he | he
          · subst he
            refine ⟨by simp, ?_, by simp, by simp, fun _ => h2⟩
            intro _ hlt
            dsimp only at hlt
            omega
          · by_cases hwk : containsKey g n = true
            · rw [if_pos hwk] at he
              exact ih rest g cyc hkeys e he
            · rw [if_neg hwk] at he
              exact ih rest _ cyc (hkeys' []) e he
        · by_cases h3 : containsKey g n = true
          · rw [dfsLoop_cycle h1' h2 h3, withEvent_trace]
            intro e he
            rcases List.mem_cons.mp he with he | he
            · subst he
              refine ⟨fun _ => ⟨rfl, by dsimp only; omega⟩, fun _ _ => rfl, by simp,
                by simp, by simp⟩
            · exact ih rest g true hkeys e he
          · have h3' : containsKey g n = false := by simpa using h3
            rcases h4 : deps n with _ | ds
            · rw [dfsLoop_fail h1' h2 h3' h4, withEvent_trace]
              intro e he
              rcases List.mem_cons.mp he with he | he
              · subst he
                refine ⟨by simp, by simp, fun _ => ⟨h4, rfl⟩, by simp, by simp⟩
              · exact ih rest _ cyc (hkeys' []) e he
            · rw [dfsLoop_expand h1' h2 h3' h4, withEvent_trace]
              intro e he
              rcases List.mem_cons.mp he with he | he
              · subst he
                refine ⟨by simp, by simp, by simp, fun _ => ⟨rfl, by rw [h4]; rfl⟩, by simp⟩
              · exact ih _ _ cyc (hkeys' _) e he

/-- Every keying pop leaves the corresponding entry in the final graph:
truncations and failures insert an empty adjacency list, expansions insert
the filtered dependency list. -/
theorem dfsLoop_keying_mem {maxDepth : Nat} {filt : String}
    {deps : String → Option (List String)} (fuel : Nat) (st : List (String × Nat))
    (g : Graph) (cyc : Bool) :
    ∀ e ∈ (dfsLoop maxDepth filt deps fuel st g cyc).trace,
      (e.branch = StepBranch.truncated → e.wasKey = false →
        (e.node, []) ∈ (dfsLoop maxDepth filt deps fuel st g cyc).graph) ∧
      (e.branch = StepBranch.failed →
        (e.node, []) ∈ (dfsLoop maxDepth filt deps fuel st g cyc).graph) ∧
      (e.branch = StepBranch.expanded → ∃ ds, deps e.node = some ds ∧
        (e.node, ds.filter (fun m => !(should_skip_package filt m))) ∈
          (dfsLoop maxDepth filt deps fuel st g cyc).graph) := by
  induction fuel generalizing st g cyc with
  | zero =>
    cases st with
    | nil => rw [dfsLoop_nil]; intro e he; simp at he
    | cons p rest => intro e he; simp [dfsLoop] at he
  | succ fuel ih =>
    cases st with
    | nil => rw [dfsLoop_nil]; intro e he; simp at he
    | cons p rest =>
      obtain ⟨n, d⟩ := p
      by_cases h1 : should_skip_package filt n = true
      · rw [dfsLoop_skip h1, withEvent_trace, withEvent_graph]
        intro e he
        rcases List.mem_cons.mp he with he | he
        · subst he
          simp
        · exact ih rest g cyc e he
      · have h1' : should_skip_package filt n = false := by simpa using h1
        by_cases h2 : maxDepth ≤ d
        · rw [dfsLoop_trunc h1' h2, withEvent_trace, withEvent_graph]
          by_cases hwk : containsKey g n = true
          · rw [if_pos hwk, hwk]
            intro e he
            rcases List.mem_cons.mp he with he | he
            · subst he
              refine ⟨?_, by simp, by simp⟩
              intro _ hfalse
              simp at hfalse
            · exact ih rest g cyc e he
          · have hwk' : containsKey g n = false := by simpa using hwk
            rw [if_neg hwk, hwk']
            intro e he
            rcases List.mem_cons.mp he with he | he
            · subst he
              refine ⟨?_, by simp, by simp⟩
              intro _ _
              exact dfsLoop_mem_graph_mono (List.mem_append_right g (by simp))
            · exact ih rest _ cyc e he
        · by_cases h3 : containsKey g n = true
          · rw [dfsLoop_cycle h1' h2 h3, withEvent_trace, withEvent_graph]
            intro e he
            rcases List.mem_cons.mp he with he | he
            · subst he
              simp
            · exact ih rest g true e he
          · have h3' : containsKey g n = false := by simpa using h3
            rcases h4 : deps n with _ | ds
            · rw [dfsLoop_fail h1' h2 h3' h4, withEvent_trace, withEvent_graph]
              intro e he
              rcases List.mem_cons.mp he with he | he
              · subst he
                refine ⟨by simp, ?_, by simp⟩
                intro _
                exact dfsLoop_mem_graph_mono (List.mem_append_right g (by simp))
              · exact ih rest _ cyc e he
            · rw [dfsLoop_expand h1' h2 h3' h4, withEvent_trace, withEvent_graph]
              intro e he
              rcases List.mem_cons.mp he with he | he
              · subst he
                refine ⟨by simp, by simp, ?_⟩
                intro _
                exact ⟨ds, h4,
                  dfsLoop_mem_graph_mono (List.mem_append_right g (by simp))⟩
              · exact ih _ _ cyc e he

/-- Each node is inserted as a key at most once: the number of keying pops
of a node, plus one if the node is already a key, never exceeds one. -/
theorem dfsLoop_keying_once {maxDepth : Nat} {filt : String}
    {deps : String → Option (List String)} (fuel : Nat) (st : List (String × Nat))
    (g : Graph) (cyc : Bool) :
    ∀ n, (((dfsLoop maxDepth filt deps fuel st g cyc).trace.filter
        (fun e => e.node == n && isKeying e)).length +
      (if containsKey g n = true then 1 else 0)) ≤ 1 := by
  induction fuel generalizing st g cyc with
  | zero =>
    cases st with
    | nil =>
      intro n
      rw [dfsLoop_nil]
      split <;> simp
    | cons p rest =>
      intro n
      simp only [dfsLoop]
      split <;> simp
  | succ fuel ih =>
    cases st with
    | nil =>
      intro n
      rw [dfsLoop_nil]
      split <;> simp
    | cons p rest =>
      obtain ⟨n₀, d⟩ := p
      intro n
      by_cases h1 : should_skip_package filt n₀ = true
      · rw [dfsLoop_skip h1, withEvent_trace, List.filter_cons,
          if_neg (by simp [isKeying])]
        exact ih rest g cyc n
      · have h1' : should_skip_package filt n₀ = false := by simpa using h1
        by_cases h2 : maxDepth ≤ d
        · rw [dfsLoop_trunc h1' h2, withEvent_trace]
          by_cases hwk : containsKey g n₀ = true
          · rw [if_pos hwk, hwk, List.filter_cons, if_neg (by simp [isKeying])]
            exact ih rest g cyc n
          · have hwk' : containsKey g n₀ = false := by simpa using hwk
            rw [if_neg hwk, hwk', List.filter_cons]
            by_cases heq : n₀ = n
            · subst heq
              rw [if_pos (by simp [isKeying])]
              have hin : containsKey (g ++ [(n₀, [])]) n₀ = true := by
                rw [containsKey_append_single]
                simp
              have hrec := ih rest (g ++ [(n₀, [])]) cyc n₀
              rw [if_pos hin] at hrec
              rw [hwk']
              simp only [List.length_cons, Bool.false_eq_true, if_false]
              omega
            · rw [if_neg (by simp [isKeying, heq])]
              have hrec := ih rest (g ++ [(n₀, [])]) cyc n
              rw [containsKey_append_single] at hrec
              have hne : (n == n₀) = false := by
                simp
                intro hx
                exact heq hx.symm
              rw [hne, Bool.or_false] at hrec
              exact hrec
        · by_cases h3 : containsKey g n₀ = true
          · rw [dfsLoop_cycle h1' h2 h3, withEvent_trace, List.filter_cons,
              if_neg (by simp [isKeying])]
            exact ih rest g true n
          · have h3' : containsKey g n₀ = false := by simpa using h3
            rcases h4 : deps n₀ with _ | ds
            · rw [dfsLoop_fail h1' h2 h3' h4, withEvent_trace, List.filter_cons]
              by_cases heq : n₀ = n
              · subst heq
                rw [if_pos (by simp [isKeying])]
                have hin : containsKey (g ++ [(n₀, [])]) n₀ = true := by
                  rw [containsKey_append_single]
                  simp
                have hrec := ih rest (g ++ [(n₀, [])]) cyc n₀
                rw [if_pos hin] at hrec
                rw [h3']
                simp only [List.length_cons, Bool.false_eq_true, if_false]
                omega
              · rw [if_neg (by simp [isKeying, heq])]
                have hrec := ih rest (g ++ [(n₀, [])]) cyc n
                rw [containsKey_append_single] at hrec
                have hne : (n == n₀) = false := by
                  simp
                  intro hx
                  exact heq hx.symm
                rw [hne, Bool.or_false] at hrec
                exact hrec
            · rw [dfsLoop_expand h1' h2 h3' h4, withEvent_trace, List.filter_cons]
              by_cases heq : n₀ = n
              · subst heq
                rw [if_pos (by simp [isKeying])]
                have hin : containsKey
                    (g ++ [(n₀, ds.filter (fun m => !(should_skip_package filt m)))])
                    n₀ = true := by
                  rw [containsKey_append_single]
                  simp
                have hrec := ih
                  ((((ds.filter (fun m => !(should_skip_package filt m))).filter
                      (fun m => !(containsKey g m || m == n₀)))).foldl
                    (fun st m => (m, d + 1) :: st) rest)
                  (g ++ [(n₀, ds.filter (fun m => !(should_skip_package filt m)))]) cyc n₀
                rw [if_pos hin] at hrec
                rw [h3']
                simp only [List.length_cons, Bool.false_eq_true, if_false]
                omega
              · rw [if_neg (by simp [isKeying, heq])]
                have hrec := ih
                  ((((ds.filter (fun m => !(should_skip_package filt m))).filter
                      (fun m => !(containsKey g m || m == n₀)))).foldl
                    (fun st m => (m, d + 1) :: st) rest)
                  (g ++ [(n₀, ds.filter (fun m => !(should_skip_package filt m)))]) cyc n
                rw [containsKey_append_single] at hrec
                have hne : (n == n₀) = false := by
                  simp
                  intro hx
                  exact heq hx.symm
                rw [hne, Bool.or_false] at hrec
                exact hrec

/-- With sufficient fuel, every node sitting on the stack is either
filtered out or ends up as a key of the final graph. -/
theorem dfsLoop_stack_keyed {maxDepth : Nat} {filt : String}
    {deps : String → Option (List String)} (fuel : Nat) (st : List (String × Nat))
    (g : Graph) (cyc : Bool) (hfuel : stackMeasure deps maxDepth st ≤ fuel) :
    ∀ p ∈ st, should_skip_package filt p.1 = true ∨
      containsKey (dfsLoop maxDepth filt deps fuel st g cyc).graph p.1 = true := by
  induction fuel generalizing st g cyc with
  | zero =>
    cases st with
    | nil => intro p hp; simp at hp
    | cons q rest =>
      exfalso
      obtain ⟨n₀, d₀⟩ := q
      rw [stackMeasure_pair_cons] at hfuel
      have := nodeBound_pos deps (maxDepth - d₀) n₀
      omega
  | succ fuel ih =>
    cases st with
    | nil => intro p hp; simp at hp
    | cons q rest =>
      obtain ⟨n₀, d₀⟩ := q
      intro p hp
      rcases List.mem_cons.mp hp with hp | hp
      · subst hp
        by_cases h1 : should_skip_package filt n₀ = true
        · exact Or.inl h1
        · have h1' : should_skip_package filt n₀ = false := by simpa using h1
          right
          by_cases h2 : maxDepth ≤ d₀
          · rw [dfsLoop_trunc h1' h2, withEvent_graph]
            by_cases hwk : containsKey g n₀ = true
            · rw [if_pos hwk]
              exact dfsLoop_containsKey_mono hwk
            · rw [if_neg hwk]
              apply dfsLoop_containsKey_mono
              rw [containsKey_append_single]
              simp
          · by_cases h3 : containsKey g n₀ = true
            · rw [dfsLoop_cycle h1' h2 h3, withEvent_graph]
              exact dfsLoop_containsKey_mono h3
            · have h3' : containsKey g n₀ = false := by simpa using h3
              rcases h4 : deps n₀ with _ | ds
              · rw [dfsLoop_fail h1' h2 h3' h4, withEvent_graph]
                apply dfsLoop_containsKey_mono
                rw [containsKey_append_single]
                simp
              · rw [dfsLoop_expand h1' h2 h3' h4, withEvent_graph]
                apply dfsLoop_containsKey_mono
                rw [containsKey_append_single]
                simp
      · by_cases h1 : should_skip_package filt n₀ = true
        · rw [dfsLoop_skip h1, withEvent_graph]
          exact ih rest g cyc (stackMeasure_tail_le hfuel) p hp
        · have h1' : should_skip_package filt n₀ = false := by simpa using h1
          by_cases h2 : maxDepth ≤ d₀
          · rw [dfsLoop_trunc h1' h2, withEvent_graph]
            by_cases hwk : containsKey g n₀ = true
            · rw [if_pos hwk]
              exact ih rest g cyc (stackMeasure_tail_le hfuel) p hp
            · rw [if_neg hwk]
              exact ih rest _ cyc (stackMeasure_tail_le hfuel) p hp
          · by_cases h3 : containsKey g n₀ = true
            · rw [dfsLoop_cycle h1' h2 h3, withEvent_graph]
              exact ih rest g true (stackMeasure_tail_le hfuel) p hp
            · have h3' : containsKey g n₀ = false := by simpa using h3
              rcases h4 : deps n₀ with _ | ds
              · rw [dfsLoop_fail h1' h2 h3' h4, withEvent_graph]
                exact ih rest _ cyc (stackMeasure_tail_le hfuel) p hp
              · rw [dfsLoop_expand h1' h2 h3' h4, withEvent_graph]
                have hd : d₀ < maxDepth := by omega
                have hmeas := stackMeasure_push_le hfuel hd h4
                  (le_trans
                    (sum_map_filter_le (ds.filter (fun m => !(should_skip_package filt m)))
                      (fun m => !(containsKey g m || m == n₀))
                      (nodeBound deps (maxDepth - (d₀ + 1))))
                    (sum_map_filter_le ds (fun m => !(should_skip_package filt m))
                      (nodeBound deps (maxDepth - (d₀ + 1)))))
                exact ih _ _ cyc hmeas p (mem_foldl_push hp)

/-- A node that is a key of the final graph was either a key already, or
got inserted by some keying pop in the trace. -/
theorem dfsLoop_keyed_from {maxDepth : Nat} {filt : String}
    {deps : String → Option (List String)} (fuel : Nat) (st : List (String × Nat))
    (g : Graph) (cyc : Bool) :
    ∀ n, containsKey (dfsLoop maxDepth filt deps fuel st g cyc).graph n = true →
      containsKey g n = true ∨
        ∃ e ∈ (dfsLoop maxDepth filt deps fuel st g cyc).trace,
          e.node = n ∧ isKeying e = true := by
  induction fuel generalizing st g cyc with
  | zero =>
    cases st with
    | nil => intro n hn; rw [dfsLoop_nil] at hn ⊢; exact Or.inl hn
    | cons p rest => intro n hn; simp only [dfsLoop] at hn; exact Or.inl hn
  | succ fuel ih =>
    cases st with
    | nil => intro n hn; rw [dfsLoop_nil] at hn ⊢; exact Or.inl hn
    | cons q rest =>
      obtain ⟨n₀, d₀⟩ := q
      intro n hn
      by_cases h1 : should_skip_package filt n₀ = true
      · rw [dfsLoop_skip h1, withEvent_graph] at hn
        rw [dfsLoop_skip h1, withEvent_trace]
        rcases ih rest g cyc n hn with h | ⟨e, he, hp⟩
        · exact Or.inl h
        · exact Or.inr ⟨e, List.mem_cons_of_mem _ he, hp⟩
      · have h1' : should_skip_package filt n₀ = false := by simpa using h1
        by_cases h2 : maxDepth ≤ d₀
        · rw [dfsLoop_trunc h1' h2, withEvent_graph] at hn
          rw [dfsLoop_trunc h1' h2, withEvent_trace]
          by_cases hwk : containsKey g n₀ = true
          · rw [if_pos hwk] at hn ⊢
            rcases ih rest g cyc n hn with h | ⟨e, he, hp⟩
            · exact Or.inl h
            · exact Or.inr ⟨e, List.mem_cons_of_mem _ he, hp⟩
          · rw [if_neg hwk] at hn ⊢
            have hwk' : containsKey g n₀ = false := by simpa using hwk
            rcases ih rest _ cyc n hn with h | ⟨e, he, hp⟩
            · rcases containsKey_append_single_cases h with h | h
              · exact Or.inl h
              · refine Or.inr ⟨⟨n₀, d₀, containsKey g n₀, .truncated⟩,
                  List.mem_cons_self _ _, h.symm, ?_⟩
                rw [hwk']
                rfl
            · exact Or.inr ⟨e, List.mem_cons_of_mem _ he, hp⟩
        · by_cases h3 : containsKey g n₀ = true
          · rw [dfsLoop_cycle h1' h2 h3, withEvent_graph] at hn
            rw [dfsLoop_cycle h1' h2 h3, withEvent_trace]
            rcases ih rest g true n hn with h | ⟨e, he, hp⟩
            · exact Or.inl h
            · exact Or.inr ⟨e, List.mem_cons_of_mem _ he, hp⟩
          · have h3' : containsKey g n₀ = false := by simpa using h3
            rcases h4 : deps n₀ with _ | ds
            · rw [dfsLoop_fail h1' h2 h3' h4, withEvent_graph] at hn
              rw [dfsLoop_fail h1' h2 h3' h4, withEvent_trace]
              rcases ih rest _ cyc n hn with h | ⟨e, he, hp⟩
              · rcases containsKey_append_single_cases h with h | h
                · exact Or.inl h
                · exact Or.inr ⟨⟨n₀, d₀, false, .failed⟩,
                    List.mem_cons_self _ _, h.symm, rfl⟩
              · exact Or.inr ⟨e, List.mem_cons_of_mem _ he, hp⟩
            · rw [dfsLoop_expand h1' h2 h3' h4, withEvent_graph] at hn
              rw [dfsLoop_expand h1' h2 h3' h4, withEvent_trace]
              rcases ih _ _ cyc n hn with h | ⟨e, he, hp⟩
              · rcases containsKey_append_single_cases h with h | h
                · exact Or.inl h
                · exact Or.inr ⟨⟨n₀, d₀, false, .expanded⟩,
                    List.mem_cons_self _ _, h.symm, rfl⟩
              · exact Or.inr ⟨e, List.mem_cons_of_mem _ he, hp⟩

theorem two_mem_length_ge {α : Type} {l : List α} {a b : α}
    (ha : a ∈ l) (hb : b ∈ l) (hne : a ≠ b) : 2 ≤ l.length := by
  induction l with
  | nil => simp at ha
  | cons x t ih =>
    rcases List.mem_cons.mp ha with ha' | ha'
    · rcases List.mem_cons.mp hb with hb' | hb'
      · exact absurd (ha'.trans hb'.symm) hne
      · have : 1 ≤ t.length := List.length_pos.mpr (List.ne_nil_of_mem hb')
        simp only [List.length_cons]
        omega
    · have : 1 ≤ t.length := List.length_pos.mpr (List.ne_nil_of_mem ha')
      simp only [List.length_cons]
      omega

/-! ### Entry-point level helper lemmas -/

theorem build_eq_dfsLoop (cfg : Config) (fetch : String → Option (List String))
    (start : String) :
    dfs_build_dependency_graph cfg fetch start =
      dfsLoop cfg.max_depth cfg.filter_substring fetch
        (stackMeasure fetch cfg.max_depth [(start, 0)]) [(start, 0)] [] false := rfl

theorem test_build_eq (cfg : Config) (start : String) (tg : Graph) :
    dfs_build_from_test_graph cfg start tg =
      dfs_build_dependency_graph cfg (fun n => List.lookup n tg) start := rfl

theorem build_keys_nodup (cfg : Config) (fetch : String → Option (List String))
    (start : String) :
    (graphKeys (dfs_build_dependency_graph cfg fetch start).graph).Nodup := by
  rw [build_eq_dfsLoop]
  exact dfsLoop_keys_nodup _ _ _ _ (by simp [graphKeys])

theorem build_failed_leaf (cfg : Config) (fetch : String → Option (List String))
    (start : String) :
    ∀ e ∈ (dfs_build_dependency_graph cfg fetch start).trace,
      e.branch = StepBranch.failed →
        List.lookup e.node (dfs_build_dependency_graph cfg fetch start).graph = some [] := by
  intro e he hb
  have hmem := ((dfsLoop_keying_mem _ _ _ _ e he).2.1) hb
  exact lookup_eq_some_of_mem_nodup (build_keys_nodup cfg fetch start) hmem

theorem build_cycle_iff (cfg : Config) (fetch : String → Option (List String))
    (start : String) :
    (dfs_build_dependency_graph cfg fetch start).cycle_detected = true ↔
      ∃ e ∈ (dfs_build_dependency_graph cfg fetch start).trace,
        e.wasKey = true ∧ e.depth < cfg.max_depth := by
  rw [build_eq_dfsLoop]
  constructor
  · intro h
    rcases (dfsLoop_cycle_iff _ _ _ _ _ _ _).mp h with h | ⟨e, he, hb⟩
    · exact absurd h (by simp)
    · exact ⟨e, he, (dfsLoop_event_facts _ _ _ _ (by simp [graphKeys]) e he).1 hb⟩
  · rintro ⟨e, he, hwk, hd⟩
    apply (dfsLoop_cycle_iff _ _ _ _ _ _ _).mpr
    exact Or.inr ⟨e, he,
      (dfsLoop_event_facts _ _ _ _ (by simp [graphKeys]) e he).2.1 hwk hd⟩

theorem build_truncated_leaf (cfg : Config) (fetch : String → Option (List String))
    (start n : String) (d : Nat)
    (htr : (⟨n, d, false, StepBranch.truncated⟩ : PopEvent) ∈
      (dfs_build_dependency_graph cfg fetch start).trace) :
    List.lookup n (dfs_build_dependency_graph cfg fetch start).graph = some [] ∧
    ∀ e ∈ (dfs_build_dependency_graph cfg fetch start).trace,
      e.node = n → e.branch ≠ StepBranch.expanded := by
  constructor
  · have hmem := ((dfsLoop_keying_mem _ _ _ _ _ htr).1) rfl rfl
    exact lookup_eq_some_of_mem_nodup (build_keys_nodup cfg fetch start) hmem
  · intro e he hnode hexp
    have honce := @dfsLoop_keying_once cfg.max_depth cfg.filter_substring fetch
      (stackMeasure fetch cfg.max_depth [(start, 0)]) [(start, 0)] [] false n
    have h0 : containsKey ([] : Graph) n = false := rfl
    rw [h0] at honce
    simp only [Bool.false_eq_true, if_false] at honce
    have h1 : (⟨n, d, false, StepBranch.truncated⟩ : PopEvent) ∈
        (dfsLoop cfg.max_depth cfg.filter_substring fetch
          (stackMeasure fetch cfg.max_depth [(start, 0)]) [(start, 0)] [] false).trace.filter
        (fun e => e.node == n && isKeying e) :=
      List.mem_filter.mpr ⟨htr, by simp [isKeying]⟩
    have h2 : e ∈
        (dfsLoop cfg.max_depth cfg.filter_substring fetch
          (stackMeasure fetch cfg.max_depth [(start, 0)]) [(start, 0)] [] false).trace.filter
        (fun e => e.node == n && isKeying e) :=
      List.mem_filter.mpr ⟨he, by simp [isKeying, hexp, hnode]⟩
    have hne : (⟨n, d, false, StepBranch.truncated⟩ : PopEvent) ≠ e := by
      intro hcontra
      rw [← hcontra] at hexp
      exact absurd hexp (by simp)
    have := two_mem_length_ge h1 h2 hne
    omega

theorem build_start_failed (cfg : Config) (fetch : String → Option (List String))
    (start : String)
    (hskip : should_skip_package cfg.filter_substring start = false)
    (hdepth : 0 < cfg.max_depth) (hfetch : fetch start = none) :
    dfs_build_dependency_graph cfg fetch start =
      ⟨[(start, [])], false, [⟨start, 0, false, StepBranch.failed⟩]⟩ := by
  have hfuel : stackMeasure fetch cfg.max_depth [(start, 0)] = 1 := by
    obtain ⟨m, hm⟩ := Nat.exists_eq_succ_of_ne_zero (Nat.pos_iff_ne_zero.mp hdepth)
    simp [stackMeasure, hm, nodeBound, hfetch]
  have h2 : ¬ cfg.max_depth ≤ 0 := by omega
  rw [build_eq_dfsLoop, hfuel]
  have hone : (1 : Nat) = 0 + 1 := rfl
  rw [hone, dfsLoop_fail hskip h2 (rfl : containsKey ([] : Graph) start = false) hfetch]
  simp [withEvent, dfsLoop_nil]

theorem build_skip_start (cfg : Config) (fetch : String → Option (List String))
    (start : String)
    (hskip : should_skip_package cfg.filter_substring start = true) :
    dfs_build_dependency_graph cfg fetch start =
      ⟨[], false, [⟨start, 0, false, StepBranch.skipped⟩]⟩ := by
  obtain ⟨m, hm⟩ : ∃ m, stackMeasure fetch cfg.max_depth [(start, 0)] = m + 1 := by
    have := nodeBound_pos fetch (cfg.max_depth - 0) start
    refine ⟨stackMeasure fetch cfg.max_depth [(start, 0)] - 1, ?_⟩
    rw [stackMeasure_pair_cons, stackMeasure_nil]
    omega
  rw [build_eq_dfsLoop, hm, dfsLoop_skip hskip]
  simp [withEvent, dfsLoop_nil, containsKey, graphKeys]

/-! ### The claims -/

/-- C1 (counterexample): on the static source A:[B], B:[C], C:[A,D],
D:[E], E:[] with start A and maxDepth 5, the build does NOT return the
claimed pair (that graph together with cycleDetected = true): the flag
stays false, because A is already a key when C lists it, so A is never
re-pushed and no pop ever re-encounters it. -/
theorem C1_counterexample :
    ¬ ((dfs_build_from_test_graph cfgCycleScenario "A" srcCycleScenario).graph =
        srcCycleScenario ∧
      (dfs_build_from_test_graph cfgCycleScenario "A" srcCycleScenario).cycle_detected =
        true) := by
  decide

/-- C1 (amended): building from the static source A:[B], B:[C], C:[A,D],
D:[E], E:[] with start A and maxDepth 5 returns exactly that graph, and
cycleDetected is false: the back-edge C to A is recorded inside C's
adjacency list, but A is already a key at push time, so it is never pushed
again and the pop-time cycle branch never fires. -/
theorem C1_amended :
    (dfs_build_from_test_graph cfgCycleScenario "A" srcCycleScenario).graph =
      srcCycleScenario ∧
    (dfs_build_from_test_graph cfgCycleScenario "A" srcCycleScenario).cycle_detected =
      false := by
  decide

/-- C2 (counterexample): with a registry fetch that fails on the start
node A, the whole analyze call does NOT abort: it returns successfully,
with A degraded to an empty-adjacency leaf. -/
theorem C2_counterexample :
    analyze_dependencies cfgRegistryA failFetch [] =
      Except.ok ⟨[("A", [])], [("A", [])], false,
        [⟨"A", 0, false, StepBranch.failed⟩]⟩ := rfl

/-- C2 (amended): in registry mode a fetch failure on the start node is
recovered locally exactly like any other node: analyze returns
successfully and the start package is entered as an empty-adjacency leaf;
the call never aborts because of a fetch failure. -/
theorem C2_amended (cfg : Config) (fetch : String → Option (List String))
    (test_data : Graph)
    (hname : ¬ cfg.package_name = "")
    (hmode : (cfg.test_repo_mode == "local" && cfg.repository_url.endsWith ".json") = false)
    (hfetch : fetch cfg.package_name = none)
    (hskip : should_skip_package cfg.filter_substring cfg.package_name = false)
    (hdepth : 0 < cfg.max_depth) :
    analyze_dependencies cfg fetch test_data =
      Except.ok ⟨[(cfg.package_name, [])], [(cfg.package_name, [])], false,
        [⟨cfg.package_name, 0, false, StepBranch.failed⟩]⟩ := by
  have hn : (cfg.package_name == "") = false := by
    rw [beq_eq_false_iff_ne]
    exact hname
  unfold analyze_dependencies
  rw [if_neg (by rw [hn]; exact Bool.false_ne_true), if_neg (by rw [hmode]; exact Bool.false_ne_true)]
  rw [build_start_failed cfg fetch cfg.package_name hskip hdepth hfetch]

/-- C2 (witness): the amended statement applied at the concrete registry
configuration with start A and an always-failing fetch. -/
theorem C2_witness :
    analyze_dependencies cfgRegistryA failFetch [] =
      Except.ok ⟨[("A", [])], [("A", [])], false,
        [⟨"A", 0, false, StepBranch.failed⟩]⟩ :=
  C2_amended cfgRegistryA failFetch [] (by decide) (by decide) rfl (by decide) (by decide)

/-- C4 (confirmed): for every build (registry or static), the returned
cycleDetected flag is true iff some pop of the traversal hit a (node,
depth) pair whose node was already a key of the graph with depth below
maxDepth. -/
theorem C4_cycle_flag_iff :
    (∀ (cfg : Config) (fetch : String → Option (List String)) (start : String),
      ((dfs_build_dependency_graph cfg fetch start).cycle_detected = true ↔
        ∃ e ∈ (dfs_build_dependency_graph cfg fetch start).trace,
          e.wasKey = true ∧ e.depth < cfg.max_depth)) ∧
    (∀ (cfg : Config) (start : String) (test_graph : Graph),
      ((dfs_build_from_test_graph cfg start test_graph).cycle_detected = true ↔
        ∃ e ∈ (dfs_build_from_test_graph cfg start test_graph).trace,
          e.wasKey = true ∧ e.depth < cfg.max_depth)) :=
  ⟨fun cfg fetch start => build_cycle_iff cfg fetch start,
   fun cfg start tg => build_cycle_iff cfg (fun n => List.lookup n tg) start⟩

/-- C5 (confirmed): a node inserted purely because its popped depth
reached maxDepth (a truncation pop of a node that was not yet a key) has
an empty adjacency list in the final graph, and no pop of that node is
ever an expansion, so its entry is never re-expanded or mutated. -/
theorem C5_truncated_leaf :
    (∀ (cfg : Config) (fetch : String → Option (List String)) (start n : String) (d : Nat),
      (⟨n, d, false, StepBranch.truncated⟩ : PopEvent) ∈
          (dfs_build_dependency_graph cfg fetch start).trace →
        List.lookup n (dfs_build_dependency_graph cfg fetch start).graph = some [] ∧
        ∀ e ∈ (dfs_build_dependency_graph cfg fetch start).trace,
          e.node = n → e.branch ≠ StepBranch.expanded) ∧
    (∀ (cfg : Config) (start : String) (test_graph : Graph) (n : String) (d : Nat),
      (⟨n, d, false, StepBranch.truncated⟩ : PopEvent) ∈
          (dfs_build_from_test_graph cfg start test_graph).trace →
        List.lookup n (dfs_build_from_test_graph cfg start test_graph).graph = some [] ∧
        ∀ e ∈ (dfs_build_from_test_graph cfg start test_graph).trace,
          e.node = n → e.branch ≠ StepBranch.expanded) :=
  ⟨fun cfg fetch start n d htr => build_truncated_leaf cfg fetch start n d htr,
   fun cfg start tg n d htr =>
     build_truncated_leaf cfg (fun m => List.lookup m tg) start n d htr⟩

/-- C5 (witness): with maxDepth 1 and the chain A:[B], B:[C], node B is
popped at depth 1 and truncated; its final entry is the empty list. -/
theorem C5_witness :
    List.lookup "B" (dfs_build_dependency_graph cfgDepthOne fetchChain "A").graph =
      some [] :=
  (C5_truncated_leaf.1 cfgDepthOne fetchChain "A" "B" 1 (by decide)).1

/-- C6 (confirmed): no excluded node (one matched by the trimmed nonempty
filter substring) ever appears as a key or inside any adjacency list of a
built graph; an excluded start node yields the empty graph and the run
performs no fetch (no pop takes the expansion or failure branch, the only
branches that call the registry). -/
theorem C6_filter_exclusion :
    ∀ (cfg : Config) (fetch : String → Option (List String)) (start : String),
      (∀ n, should_skip_package cfg.filter_substring n = true →
        containsKey (dfs_build_dependency_graph cfg fetch start).graph n = false ∧
        ∀ p ∈ (dfs_build_dependency_graph cfg fetch start).graph, n ∉ p.2) ∧
      (should_skip_package cfg.filter_substring start = true →
        (dfs_build_dependency_graph cfg fetch start).graph = [] ∧
        ∀ e ∈ (dfs_build_dependency_graph cfg fetch start).trace,
          e.branch ≠ StepBranch.expanded ∧ e.branch ≠ StepBranch.failed) := by
  intro cfg fetch start
  constructor
  · intro n hn
    constructor
    · by_cases hck : containsKey (dfs_build_dependency_graph cfg fetch start).graph n = true
      · exfalso
        rw [build_eq_dfsLoop] at hck
        have hfalse := dfsLoop_keys_not_skipped _ _ _ _ (by simp [graphKeys]) n
          (containsKey_iff.mp hck)
        rw [hfalse] at hn
        exact Bool.false_ne_true hn
      · simpa using hck
    · intro p hp hmem
      rw [build_eq_dfsLoop] at hp
      have hfalse := dfsLoop_adj_not_skipped _ _ _ _ (by intro p hp; simp at hp) p hp n hmem
      rw [hfalse] at hn
      exact Bool.false_ne_true hn
  · intro hstart
    rw [build_skip_start cfg fetch start hstart]
    refine ⟨rfl, ?_⟩
    intro e he
    rw [List.mem_singleton] at he
    subst he
    exact ⟨by simp, by simp⟩

/-- C6 (witness): with filter substring X the reported dependency XB of
the start node A is excluded and never becomes a key. -/
theorem C6_witness :
    containsKey (dfs_build_dependency_graph cfgFilterX fetchWithExcluded "A").graph
      "XB" = false :=
  ((C6_filter_exclusion cfgFilterX fetchWithExcluded "A").1 "XB" (by decide)).1

/-- C8 (confirmed): in registry mode every pop whose fetch fails enters
its node into the graph with an empty adjacency list, and the analyze call
as a whole returns successfully for every fetch function — a per-node
failure never aborts the build. -/
theorem C8_failure_degrades_to_leaf :
    (∀ (cfg : Config) (fetch : String → Option (List String)) (start : String),
      ∀ e ∈ (dfs_build_dependency_graph cfg fetch start).trace,
        e.branch = StepBranch.failed →
          List.lookup e.node (dfs_build_dependency_graph cfg fetch start).graph =
            some []) ∧
    (∀ (cfg : Config) (fetch : String → Option (List String)) (test_data : Graph),
      ¬ cfg.package_name = "" →
      (cfg.test_repo_mode == "local" && cfg.repository_url.endsWith ".json") = false →
      ∃ r, analyze_dependencies cfg fetch test_data = Except.ok r) := by
  constructor
  · intro cfg fetch start
    exact build_failed_leaf cfg fetch start
  · intro cfg fetch td hname hmode
    have hn : (cfg.package_name == "") = false := by
      rw [beq_eq_false_iff_ne]
      exact hname
    unfold analyze_dependencies
    rw [if_neg (by rw [hn]; exact Bool.false_ne_true),
      if_neg (by rw [hmode]; exact Bool.false_ne_true)]
    exact ⟨_, rfl⟩

/-- C8 (witness): an always-failing fetch on start A leaves A as an
empty-adjacency leaf in the final graph. -/
theorem C8_witness :
    List.lookup "A" (dfs_build_dependency_graph cfgRegistryA failFetch "A").graph =
      some [] :=
  C8_failure_degrades_to_leaf.1 cfgRegistryA failFetch "A"
    ⟨"A", 0, false, StepBranch.failed⟩ (by decide) rfl

/-- C9 (confirmed): the reverse-dependency query raises the state error
exactly when the stored full graph is empty; a successfully completed
analyze with an excluded start node in registry mode stores an empty full
graph, after which the query still raises the same "graph not built"
error — an empty stored graph is indistinguishable from an absent one. -/
theorem C9_empty_graph_state_error :
    (∀ t : String, analyze_reverse_dependencies [] t =
      Except.error "graph not built; run analyze_dependencies first") ∧
    analyze_dependencies cfgExcludedStart fetchConstZ [] =
      Except.ok ⟨[], [], false, [⟨"A", 0, false, StepBranch.skipped⟩]⟩ ∧
    analyze_reverse_dependencies
        (AnalyzeResult.mk [] [] false [⟨"A", 0, false, StepBranch.skipped⟩]).full_graph
        "B" =
      Except.error "graph not built; run analyze_dependencies first" :=
  ⟨fun _ => rfl, rfl, rfl⟩

/-- C10 (confirmed): in static mode a popped node absent from the loaded
test graph is silently entered with an empty adjacency list and the build
continues; in particular a start node missing from the file yields the
one-entry graph start:[] with no error. -/
theorem C10_missing_node_leaf :
    (∀ (cfg : Config) (start : String) (test_graph : Graph),
      ∀ e ∈ (dfs_build_from_test_graph cfg start test_graph).trace,
        e.branch = StepBranch.failed →
          List.lookup e.node (dfs_build_from_test_graph cfg start test_graph).graph =
            some []) ∧
    (∀ (cfg : Config) (start : String) (test_graph : Graph),
      should_skip_package cfg.filter_substring start = false →
      0 < cfg.max_depth →
      List.lookup start test_graph = none →
      dfs_build_from_test_graph cfg start test_graph =
        ⟨[(start, [])], false, [⟨start, 0, false, StepBranch.failed⟩]⟩) := by
  constructor
  · intro cfg start tg
    exact build_failed_leaf cfg (fun n => List.lookup n tg) start
  · intro cfg start tg hskip hdepth habs
    exact build_start_failed cfg (fun n => List.lookup n tg) start hskip hdepth habs

/-- C10 (witness): the start package X is absent from the loaded graph
A:[B]; the build succeeds with the single truncated-to-leaf entry X:[]. -/
theorem C10_witness :
    dfs_build_from_test_graph cfgMissingStart "X" [("A", ["B"])] =
      ⟨[("X", [])], false, [⟨"X", 0, false, StepBranch.failed⟩]⟩ :=
  C10_missing_node_leaf.2 cfgMissingStart "X" [("A", ["B"])] (by decide) (by decide) rfl

/-! ### The reverse-dependency scan -/

theorem contains_iff_mem {l : List String} {x : String} :
    l.contains x = true ↔ x ∈ l := by
  simp [List.contains_eq_any_beq, List.any_eq_true, eq_comm]

theorem contains_append_single (l : List String) (a x : String) :
    (l ++ [a]).contains x = (l.contains x || x == a) := by
  simp only [List.contains_eq_any_beq, List.any_append, List.any_cons, List.any_nil,
    Bool.or_false]

theorem lookup_none_keys {g : Graph} {n : String} (h : List.lookup n g = none) :
    ∀ p ∈ g, ¬ p.1 = n := by
  induction g with
  | nil => intro p hp; simp at hp
  | cons q t ih =>
    obtain ⟨qk, qv⟩ := q
    intro p hp
    rcases hk : (n == qk) with _ | _
    · simp only [List.lookup, hk] at h
      rcases List.mem_cons.mp hp with hp | hp
      · rw [hp]
        intro hcontra
        dsimp only at hcontra
        rw [hcontra] at hk
        simp at hk
      · exact ih h p hp
    · simp [List.lookup, hk] at h

theorem filter_not_visited_nonkey {g : Graph} {n : String} (visited : List String)
    (h : List.lookup n g = none) :
    g.filter (fun p => !((visited ++ [n]).contains p.1)) =
      g.filter (fun p => !(visited.contains p.1)) := by
  apply List.filter_congr
  intro p hp
  rw [contains_append_single]
  have hne : (p.1 == n) = false := by
    have := lookup_none_keys h p hp
    simpa using this
  rw [hne, Bool.or_false]

theorem sum_map_filter_mono {α : Type} (l : List α) (p q : α → Bool) (f : α → Nat)
    (himp : ∀ x, q x = true → p x = true) :
    ((l.filter q).map f).sum ≤ ((l.filter p).map f).sum := by
  induction l with
  | nil => simp
  | cons x xs ih =>
    rw [List.filter_cons, List.filter_cons]
    by_cases hq : q x = true
    · rw [if_pos hq, if_pos (himp x hq)]
      simp only [List.map_cons, List.sum_cons]
      omega
    · rw [if_neg hq]
      by_cases hp : p x = true
      · rw [if_pos hp]
        simp only [List.map_cons, List.sum_cons]
        omega
      · rw [if_neg hp]
        exact ih

theorem sum_weights_visit_key {g : Graph} {n : String} {ds : List String}
    (visited : List String) (hvn : visited.contains n = false)
    (hds : List.lookup n g = some ds) :
    ((g.filter (fun p => !((visited ++ [n]).contains p.1))).map
        (fun p => 1 + p.2.length)).sum + (1 + ds.length) ≤
      ((g.filter (fun p => !(visited.contains p.1))).map
        (fun p => 1 + p.2.length)).sum := by
  induction g with
  | nil => simp at hds
  | cons q t ih =>
    obtain ⟨qk, qv⟩ := q
    rcases hk : (n == qk) with _ | _
    · have hlk : List.lookup n t = some ds := by
        simpa [List.lookup, hk] using hds
      have hcond : ((visited ++ [n]).contains qk) = visited.contains qk := by
        rw [contains_append_single]
        have hne : (qk == n) = false := by
          rcases hqq : (qk == n) with _ | _
          · rfl
          · exfalso
            have : qk = n := by simpa using hqq
            rw [this] at hk
            simp at hk
        rw [hne, Bool.or_false]
      rw [List.filter_cons, List.filter_cons]
      dsimp only
      rw [hcond]
      by_cases hvq : (!(visited.contains qk)) = true
      · rw [if_pos hvq, if_pos hvq]
        simp only [List.map_cons, List.sum_cons]
        have := ih hlk
        omega
      · rw [if_neg hvq, if_neg hvq]
        exact ih hlk
    · have hnq : n = qk := by simpa using hk
      have hvds : qv = ds := by
        have := hds
        simp only [List.lookup, hk, Option.some.injEq] at this
        exact this
      rw [List.filter_cons, List.filter_cons]
      dsimp only
      have hold : (!(visited.contains qk)) = true := by
        rw [← hnq, hvn]
        rfl
      have hnew : (!((visited ++ [n]).contains qk)) = true → False := by
        rw [contains_append_single]
        have : (qk == n) = true := by simp [hnq]
        rw [this, Bool.or_true]
        simp
      rw [if_pos hold, if_neg hnew]
      simp only [List.map_cons, List.sum_cons]
      have hmono : ((t.filter (fun p => !((visited ++ [n]).contains p.1))).map
          (fun p => 1 + p.2.length)).sum ≤
        ((t.filter (fun p => !(visited.contains p.1))).map
          (fun p => 1 + p.2.length)).sum := by
        apply sum_map_filter_mono
        intro x hx
        rcases hvx : visited.contains x.1 with _ | _
        · rfl
        · exfalso
          have : (visited ++ [n]).contains x.1 = true := by
            rw [contains_append_single, hvx]
            rfl
          rw [this] at hx
          simp at hx
      rw [hvds]
      omega

theorem foldl_cons_eq (l rest : List String) :
    l.foldl (fun st m => m :: st) rest = l.reverse ++ rest := by
  induction l generalizing rest with
  | nil => simp
  | cons x xs ih => simp [List.foldl_cons, ih]

theorem revMeasure_cons (g : Graph) (visited : List String) (n : String)
    (rest : List String) :
    revMeasure g visited (n :: rest) = 1 + revMeasure g visited rest := by
  simp [revMeasure]
  omega

theorem revLoop_nil (g : Graph) (target : String) (fuel : Nat)
    (visited acc : List String) :
    revLoop g target fuel [] visited acc = acc := by
  cases fuel <;> rfl

theorem revLoop_visited {g : Graph} {target n : String} {fuel : Nat}
    {rest visited acc : List String} (h : visited.contains n = true) :
    revLoop g target (fuel + 1) (n :: rest) visited acc =
      revLoop g target fuel rest visited acc := by
  simp only [revLoop]
  rw [if_pos h]

theorem revLoop_key {g : Graph} {target n : String} {fuel : Nat}
    {rest visited acc : List String} {ds : List String}
    (h1 : visited.contains n = false) (h2 : List.lookup n g = some ds) :
    revLoop g target (fuel + 1) (n :: rest) visited acc =
      revLoop g target fuel
        ((ds.filter (fun m => !((visited ++ [n]).contains m))).foldl
          (fun st m => m :: st) rest)
        (visited ++ [n])
        (if ds.contains target then acc ++ [n] else acc) := by
  simp only [revLoop]
  rw [if_neg (by rw [h1]; exact Bool.false_ne_true), h2]

theorem revLoop_nonkey {g : Graph} {target n : String} {fuel : Nat}
    {rest visited acc : List String}
    (h1 : visited.contains n = false) (h2 : List.lookup n g = none) :
    revLoop g target (fuel + 1) (n :: rest) visited acc =
      revLoop g target fuel rest (visited ++ [n]) acc := by
  simp only [revLoop]
  rw [if_neg (by rw [h1]; exact Bool.false_ne_true), h2]

/-- The accumulated result only grows (by appending) along the scan. -/
theorem revLoop_acc_ext (g : Graph) (target : String) (fuel : Nat)
    (stack visited acc : List String) :
    ∃ ext, revLoop g target fuel stack visited acc = acc ++ ext := by
  induction fuel generalizing stack visited acc with
  | zero =>
    cases stack with
    | nil => exact ⟨[], by rw [revLoop_nil]; simp⟩
    | cons n rest => exact ⟨[], by simp [revLoop]⟩
  | succ fuel ih =>
    cases stack with
    | nil => exact ⟨[], by rw [revLoop_nil]; simp⟩
    | cons n rest =>
      by_cases hv : visited.contains n = true
      · rw [revLoop_visited hv]
        exact ih rest visited acc
      · have hv' : visited.contains n = false := by simpa using hv
        rcases hlk : List.lookup n g with _ | ds
        · rw [revLoop_nonkey hv' hlk]
          exact ih rest (visited ++ [n]) acc
        · rw [revLoop_key hv' hlk]
          by_cases ht : ds.contains target = true
          · rw [if_pos ht]
            obtain ⟨ext, hext⟩ := ih _ (visited ++ [n]) (acc ++ [n])
            exact ⟨[n] ++ ext, by rw [hext, List.append_assoc]⟩
          · rw [if_neg ht]
            exact ih _ (visited ++ [n]) acc

/-- Main invariant of the reverse-dependency scan: given enough fuel, the
result extends the accumulator without duplicates, every new element is an
unvisited node whose adjacency list contains the target, and every
unvisited stack node whose adjacency list contains the target makes it
into the result. -/
theorem revLoop_spec (g : Graph) (target : String) (fuel : Nat)
    (stack visited acc : List String)
    (hfuel : revMeasure g visited stack ≤ fuel)
    (hnd : acc.Nodup)
    (hav : ∀ a ∈ acc, a ∈ visited) :
    (revLoop g target fuel stack visited acc).Nodup ∧
    (∀ n ∈ revLoop g target fuel stack visited acc,
      n ∈ acc ∨ ((∃ ds, List.lookup n g = some ds ∧ target ∈ ds) ∧ n ∉ visited)) ∧
    (∀ n ∈ stack, (∃ ds, List.lookup n g = some ds ∧ target ∈ ds) → n ∉ visited →
      n ∈ revLoop g target fuel stack visited acc) := by
  induction fuel generalizing stack visited acc with
  | zero =>
    cases stack with
    | nil =>
      rw [revLoop_nil]
      exact ⟨hnd, fun n hn => Or.inl hn, fun n hn => by simp at hn⟩
    | cons n rest =>
      exfalso
      rw [revMeasure_cons] at hfuel
      omega
  | succ fuel ih =>
    cases stack with
    | nil =>
      rw [revLoop_nil]
      exact ⟨hnd, fun n hn => Or.inl hn, fun n hn => by simp at hn⟩
    | cons n₀ rest =>
      have hfuel' : revMeasure g visited rest ≤ fuel := by
        rw [revMeasure_cons] at hfuel
        omega
      by_cases hv : visited.contains n₀ = true
      · rw [revLoop_visited hv]
        obtain ⟨ha, hb, hc⟩ := ih rest visited acc hfuel' hnd hav
        refine ⟨ha, hb, ?_⟩
        intro n hn hT hnv
        rcases List.mem_cons.mp hn with hn | hn
        · exfalso
          rw [hn] at hnv
          exact hnv (contains_iff_mem.mp hv)
        · exact hc n hn hT hnv
      · have hv' : visited.contains n₀ = false := by simpa using hv
        have hnv₀ : n₀ ∉ visited := by
          intro hcontra
          have hmem := contains_iff_mem.mpr hcontra
          rw [hv'] at hmem
          exact Bool.false_ne_true hmem
        rcases hlk : List.lookup n₀ g with _ | ds
        · rw [revLoop_nonkey hv' hlk]
          have hmeq : revMeasure g (visited ++ [n₀]) rest = revMeasure g visited rest := by
            unfold revMeasure
            rw [filter_not_visited_nonkey visited hlk]
          have hav' : ∀ a ∈ acc, a ∈ visited ++ [n₀] := by
            intro a ha
            exact List.mem_append_left _ (hav a ha)
          obtain ⟨ha, hb, hc⟩ := ih rest (visited ++ [n₀]) acc (by omega) hnd hav'
          refine ⟨ha, ?_, ?_⟩
          · intro n hn
            rcases hb n hn with h | ⟨hT, hnv⟩
            · exact Or.inl h
            · refine Or.inr ⟨hT, fun hcontra => hnv (List.mem_append_left _ hcontra)⟩
          · intro n hn hT hnv
            have hne : ¬ n = n₀ := by
              intro hcontra
              rw [hcontra] at hT
              obtain ⟨ds, hds, _⟩ := hT
              rw [hlk] at hds
              exact Option.noConfusion hds
            rcases List.mem_cons.mp hn with hn | hn
            · exact absurd hn hne
            · apply hc n hn hT
              intro hcontra
              rcases List.mem_append.mp hcontra with h | h
              · exact hnv h
              · rw [List.mem_singleton] at h
                exact hne h
        · rw [revLoop_key hv' hlk]
          have hn₀acc : n₀ ∉ acc := fun h => hnv₀ (hav n₀ h)
          have hnd' : (if ds.contains target then acc ++ [n₀] else acc).Nodup := by
            by_cases ht : ds.contains target = true
            · rw [if_pos ht]
              rw [List.nodup_append]
              exact ⟨hnd, List.nodup_singleton _, by
                intro a ha hx
                rw [List.mem_singleton] at hx
                rw [hx] at ha
                exact hn₀acc ha⟩
            · rw [if_neg ht]
              exact hnd
          have hav' : ∀ a ∈ (if ds.contains target then acc ++ [n₀] else acc),
              a ∈ visited ++ [n₀] := by
            intro a ha
            by_cases ht : ds.contains target = true
            · rw [if_pos ht] at ha
              rcases List.mem_append.mp ha with h | h
              · exact List.mem_append_left _ (hav a h)
              · exact List.mem_append_right _ h
            · rw [if_neg ht] at ha
              exact List.mem_append_left _ (hav a ha)
          have hfuel'' : revMeasure g (visited ++ [n₀])
              ((ds.filter (fun m => !((visited ++ [n₀]).contains m))).foldl
                (fun st m => m :: st) rest) ≤ fuel := by
            have hsum := sum_weights_visit_key visited hv' hlk
            have hlen : ((ds.filter (fun m => !((visited ++ [n₀]).contains m))).foldl
                (fun st m => m :: st) rest).length ≤ ds.length + rest.length := by
              rw [foldl_cons_eq, List.length_append, List.length_reverse]
              have := List.length_filter_le (fun m => !((visited ++ [n₀]).contains m)) ds
              omega
            rw [revMeasure_cons] at hfuel
            unfold revMeasure at hfuel ⊢
            omega
          obtain ⟨ha, hb, hc⟩ := ih _ (visited ++ [n₀]) _ hfuel'' hnd' hav'
          refine ⟨ha, ?_, ?_⟩
          · intro n hn
            rcases hb n hn with h | ⟨hT, hnv⟩
            · by_cases ht : ds.contains target = true
              · rw [if_pos ht] at h
                rcases List.mem_append.mp h with h | h
                · exact Or.inl h
                · rw [List.mem_singleton] at h
                  subst h
                  exact Or.inr ⟨⟨ds, hlk, contains_iff_mem.mp ht⟩, hnv₀⟩
              · rw [if_neg ht] at h
                exact Or.inl h
            · exact Or.inr ⟨hT, fun hcontra => hnv (List.mem_append_left _ hcontra)⟩
          · intro n hn hT hnv
            by_cases hne : n = n₀
            · subst hne
              obtain ⟨ds', hds', htgt⟩ := hT
              rw [hlk] at hds'
              have hds'' : ds = ds' := by
                injection hds'
              have ht : ds.contains target = true := by
                rw [hds'']
                exact contains_iff_mem.mpr htgt
              obtain ⟨ext, hext⟩ := revLoop_acc_ext g target fuel
                ((ds.filter (fun m => !((visited ++ [n]).contains m))).foldl
                  (fun st m => m :: st) rest)
                (visited ++ [n]) (if ds.contains target then acc ++ [n] else acc)
              rw [hext, if_pos ht]
              rw [List.append_assoc]
              apply List.mem_append_right
              exact List.mem_append_left _ (List.mem_singleton_self n)
            · rcases List.mem_cons.mp hn with hn | hn
              · exact absurd hn hne
              · apply hc n ?_ hT
                · intro hcontra
                  rcases List.mem_append.mp hcontra with h | h
                  · exact hnv h
                  · rw [List.mem_singleton] at h
                    exact hne h
                · rw [foldl_cons_eq]
                  exact List.mem_append_right _ hn

/-- C3 (confirmed): `find_reverse_dependencies target g` lists exactly the
keys of `g` whose adjacency list contains the target, each exactly once,
for every graph — scan order, duplicates on the stack and disconnected
components notwithstanding. -/
theorem C3_reverse_dependents_exact :
    ∀ (g : Graph) (target : String),
      (find_reverse_dependencies target g).Nodup ∧
      ∀ n, n ∈ find_reverse_dependencies target g ↔
        ∃ ds, List.lookup n g = some ds ∧ target ∈ ds := by
  intro g target
  unfold find_reverse_dependencies
  obtain ⟨ha, hb, hc⟩ := revLoop_spec g target
    (revMeasure g [] (graphKeys g).reverse) (graphKeys g).reverse [] []
    le_rfl List.nodup_nil (by intro a ha; simp at ha)
  refine ⟨ha, ?_⟩
  intro n
  constructor
  · intro hn
    rcases hb n hn with h | ⟨hT, _⟩
    · simp at h
    · exact hT
  · intro hT
    apply hc n ?_ hT (by simp)
    rw [List.mem_reverse]
    obtain ⟨ds, hlk, _⟩ := hT
    exact mem_graphKeys_of_mem (mem_of_lookup_eq_some hlk)

/-! ### Round-trip infrastructure -/

theorem skip_empty_filter (n : String) : should_skip_package "" n = false := rfl

theorem filter_skip_empty (ds : List String) :
    ds.filter (fun m => !(should_skip_package "" m)) = ds := by
  apply List.filter_eq_self.mpr
  intro a _
  rw [skip_empty_filter]
  rfl

theorem nodup_subset_length_le {l B : List String} (hnd : l.Nodup)
    (hsub : ∀ x ∈ l, x ∈ B) : l.length ≤ B.length := by
  classical
  have h1 : l.toFinset.card = l.length := List.toFinset_card_of_nodup hnd
  have h2 : l.toFinset ⊆ B.toFinset := by
    intro x hx
    rw [List.mem_toFinset] at hx ⊢
    exact hsub x hx
  have h3 := Finset.card_le_card h2
  have h4 := B.toFinset_card_le
  omega

theorem filter_keys_append_le (g : Graph) (k : String) (v : List String)
    (P : String → Bool) :
    ((graphKeys g).filter P).length ≤ ((graphKeys (g ++ [(k, v)])).filter P).length := by
  rw [graphKeys_append, List.filter_append, List.length_append]
  omega

theorem filter_keys_append_succ (g : Graph) (k : String) (v : List String)
    (P : String → Bool) (hP : P k = true) :
    ((graphKeys (g ++ [(k, v)])).filter P).length =
      ((graphKeys g).filter P).length + 1 := by
  rw [graphKeys_append, List.filter_append, List.length_append]
  simp [graphKeys, hP]

theorem mem_foldl_push_self {pushed : List String} {rest : List (String × Nat)}
    {d : Nat} {m : String} (h : m ∈ pushed) :
    (m, d) ∈ pushed.foldl (fun st m => (m, d) :: st) rest := by
  rw [foldl_push_eq]
  apply List.mem_append_left
  rw [List.mem_reverse, List.mem_map]
  exact ⟨m, h, rfl⟩

/-- When every node with an available dependency list belongs to a finite
list `B` shorter than the depth bound, no pop ever reaches the depth bound:
the depth of a stack entry never exceeds the number of keys already
inserted with an available dependency list. -/
theorem dfsLoop_no_trunc {maxDepth : Nat} {filt : String}
    {deps : String → Option (List String)} (B : List String)
    (hB : ∀ k, (deps k).isSome = true → k ∈ B)
    (hdepth : B.length < maxDepth) :
    ∀ (fuel : Nat) (st : List (String × Nat)) (g : Graph) (cyc : Bool),
      (graphKeys g).Nodup →
      (∀ p ∈ st, p.2 ≤ ((graphKeys g).filter (fun k => (deps k).isSome)).length) →
      ∀ e ∈ (dfsLoop maxDepth filt deps fuel st g cyc).trace,
        e.branch ≠ StepBranch.truncated := by
  intro fuel
  induction fuel with
  | zero =>
    intro st g cyc hnd hst e he
    cases st with
    | nil => rw [dfsLoop_nil] at he; simp at he
    | cons p rest => simp [dfsLoop] at he
  | succ fuel ih =>
    intro st g cyc hnd hst e he
    cases st with
    | nil => rw [dfsLoop_nil] at he; simp at he
    | cons q rest =>
      obtain ⟨n₀, d₀⟩ := q
      have hcnt : ((graphKeys g).filter (fun k => (deps k).isSome)).length ≤ B.length := by
        apply nodup_subset_length_le (hnd.filter _)
        intro x hx
        have hx' := List.mem_filter.mp hx
        exact hB x (by simpa using hx'.2)
      have hd₀ : d₀ ≤ ((graphKeys g).filter (fun k => (deps k).isSome)).length :=
        hst (n₀, d₀) (List.mem_cons_self _ _)
      have h2 : ¬ maxDepth ≤ d₀ := by omega
      have hstRest : ∀ p ∈ rest,
          p.2 ≤ ((graphKeys g).filter (fun k => (deps k).isSome)).length :=
        fun p hp => hst p (List.mem_cons_of_mem _ hp)
      by_cases h1 : should_skip_package filt n₀ = true
      · rw [dfsLoop_skip h1, withEvent_trace] at he
        rcases List.mem_cons.mp he with he | he
        · subst he; simp
        · exact ih rest g cyc hnd hstRest e he
      · have h1' : should_skip_package filt n₀ = false := by simpa using h1
        by_cases h3 : containsKey g n₀ = true
        · rw [dfsLoop_cycle h1' h2 h3, withEvent_trace] at he
          rcases List.mem_cons.mp he with he | he
          · subst he; simp
          · exact ih rest g true hnd hstRest e he
        · have h3' : containsKey g n₀ = false := by simpa using h3
          rcases h4 : deps n₀ with _ | ds
          · rw [dfsLoop_fail h1' h2 h3' h4, withEvent_trace] at he
            rcases List.mem_cons.mp he with he | he
            · subst he; simp
            · exact ih rest (g ++ [(n₀, [])]) cyc (nodup_keys_append_single hnd h3')
                (fun p hp => le_trans (hstRest p hp)
                  (filter_keys_append_le g n₀ [] _)) e he
          · rw [dfsLoop_expand h1' h2 h3' h4, withEvent_trace] at he
            rcases List.mem_cons.mp he with he | he
            · subst he; simp
            · have hsucc := filter_keys_append_succ g n₀
                (ds.filter (fun m => !(should_skip_package filt m)))
                (fun k => (deps k).isSome) (by dsimp only; rw [h4]; rfl)
              apply ih _ (g ++ [(n₀, ds.filter (fun m => !(should_skip_package filt m)))])
                cyc (nodup_keys_append_single hnd h3') ?_ e he
              intro p hp
              rcases mem_of_mem_foldl_push hp with ⟨hp1, hp2⟩ | hp
              · rw [hp2, hsucc]
                omega
              · exact le_trans (hstRest p hp) (by rw [hsucc]; omega)

/-- Closure invariant: with sufficient fuel, every member of every
adjacency list of the final graph is itself a key of the final graph,
provided every adjacency member of the starting graph is unfiltered and is
a key or pending on the stack. -/
theorem dfsLoop_closure {maxDepth : Nat} {filt : String}
    {deps : String → Option (List String)} :
    ∀ (fuel : Nat) (st : List (String × Nat)) (g : Graph) (cyc : Bool),
      stackMeasure deps maxDepth st ≤ fuel →
      (∀ p ∈ g, ∀ m ∈ p.2, should_skip_package filt m = false ∧
        (containsKey g m = true ∨ ∃ d, (m, d) ∈ st)) →
      ∀ p ∈ (dfsLoop maxDepth filt deps fuel st g cyc).graph,
        ∀ m ∈ p.2, containsKey (dfsLoop maxDepth filt deps fuel st g cyc).graph m = true := by
  intro fuel
  induction fuel with
  | zero =>
    intro st g cyc hfuel hinv p hp m hm
    cases st with
    | nil =>
      rw [dfsLoop_nil] at hp ⊢
      rcases (hinv p hp m hm).2 with h | ⟨d, hd⟩
      · exact h
      · simp at hd
    | cons q rest =>
      exfalso
      obtain ⟨n₀, d₀⟩ := q
      rw [stackMeasure_pair_cons] at hfuel
      have := nodeBound_pos deps (maxDepth - d₀) n₀
      omega
  | succ fuel ih =>
    intro st g cyc hfuel hinv p hp m hm
    cases st with
    | nil =>
      rw [dfsLoop_nil] at hp ⊢
      rcases (hinv p hp m hm).2 with h | ⟨d, hd⟩
      · exact h
      · simp at hd
    | cons q rest =>
      obtain ⟨n₀, d₀⟩ := q
      by_cases h1 : should_skip_package filt n₀ = true
      · rw [dfsLoop_skip h1, withEvent_graph] at hp ⊢
        refine ih rest g cyc (stackMeasure_tail_le hfuel) ?_ p hp m hm
        intro p' hp' m' hm'
        obtain ⟨hsk, hloc⟩ := hinv p' hp' m' hm'
        refine ⟨hsk, ?_⟩
        rcases hloc with h | ⟨d, hd⟩
        · exact Or.inl h
        · rcases List.mem_cons.mp hd with hd | hd
          · exfalso
            have hmn : m' = n₀ := congrArg Prod.fst hd
            rw [hmn] at hsk
            rw [h1] at hsk
            exact Bool.noConfusion hsk
          · exact Or.inr ⟨d, hd⟩
      · have h1' : should_skip_package filt n₀ = false := by simpa using h1
        by_cases h2 : maxDepth ≤ d₀
        · rw [dfsLoop_trunc h1' h2, withEvent_graph] at hp ⊢
          by_cases hwk : containsKey g n₀ = true
          · rw [if_pos hwk] at hp ⊢
            refine ih rest g cyc (stackMeasure_tail_le hfuel) ?_ p hp m hm
            intro p' hp' m' hm'
            obtain ⟨hsk, hloc⟩ := hinv p' hp' m' hm'
            refine ⟨hsk, ?_⟩
            rcases hloc with h | ⟨d, hd⟩
            · exact Or.inl h
            · rcases List.mem_cons.mp hd with hd | hd
              · have hmn : m' = n₀ := congrArg Prod.fst hd
                rw [hmn]
                exact Or.inl hwk
              · exact Or.inr ⟨d, hd⟩
          · rw [if_neg hwk] at hp ⊢
            refine ih rest _ cyc (stackMeasure_tail_le hfuel) ?_ p hp m hm
            intro p' hp' m' hm'
            rcases List.mem_append.mp hp' with hp'' | hp''
            · obtain ⟨hsk, hloc⟩ := hinv p' hp'' m' hm'
              refine ⟨hsk, ?_⟩
              rcases hloc with h | ⟨d, hd⟩
              · exact Or.inl (containsKey_mono _ h)
              · rcases List.mem_cons.mp hd with hd | hd
                · have hmn : m' = n₀ := congrArg Prod.fst hd
                  rw [hmn]
                  apply Or.inl
                  rw [containsKey_append_single]
                  simp
                · exact Or.inr ⟨d, hd⟩
            · rw [List.mem_singleton] at hp''
              rw [hp''] at hm'
              simp at hm'
        · by_cases h3 : containsKey g n₀ = true
          · rw [dfsLoop_cycle h1' h2 h3, withEvent_graph] at hp ⊢
            refine ih rest g true (stackMeasure_tail_le hfuel) ?_ p hp m hm
            intro p' hp' m' hm'
            obtain ⟨hsk, hloc⟩ := hinv p' hp' m' hm'
            refine ⟨hsk, ?_⟩
            rcases hloc with h | ⟨d, hd⟩
            · exact Or.inl h
            · rcases List.mem_cons.mp hd with hd | hd
              · have hmn : m' = n₀ := congrArg Prod.fst hd
                rw [hmn]
                exact Or.inl h3
              · exact Or.inr ⟨d, hd⟩
          · have h3' : containsKey g n₀ = false := by simpa using h3
            rcases h4 : deps n₀ with _ | ds
            · rw [dfsLoop_fail h1' h2 h3' h4, withEvent_graph] at hp ⊢
              refine ih rest _ cyc (stackMeasure_tail_le hfuel) ?_ p hp m hm
              intro p' hp' m' hm'
              rcases List.mem_append.mp hp' with hp'' | hp''
              · obtain ⟨hsk, hloc⟩ := hinv p' hp'' m' hm'
                refine ⟨hsk, ?_⟩
                rcases hloc with h | ⟨d, hd⟩
                · exact Or.inl (containsKey_mono _ h)
                · rcases List.mem_cons.mp hd with hd | hd
                  · have hmn : m' = n₀ := congrArg Prod.fst hd
                    rw [hmn]
                    apply Or.inl
                    rw [containsKey_append_single]
                    simp
                  · exact Or.inr ⟨d, hd⟩
              · rw [List.mem_singleton] at hp''
                rw [hp''] at hm'
                simp at hm'
            · rw [dfsLoop_expand h1' h2 h3' h4, withEvent_graph] at hp ⊢
              have hd₀ : d₀ < maxDepth := by omega
              have hmeas := stackMeasure_push_le hfuel hd₀ h4
                (le_trans
                  (sum_map_filter_le (ds.filter (fun m => !(should_skip_package filt m)))
                    (fun m => !(containsKey g m || m == n₀))
                    (nodeBound deps (maxDepth - (d₀ + 1))))
                  (sum_map_filter_le ds (fun m => !(should_skip_package filt m))
                    (nodeBound deps (maxDepth - (d₀ + 1)))))
              refine ih _ _ cyc hmeas ?_ p hp m hm
              intro p' hp' m' hm'
              rcases List.mem_append.mp hp' with hp'' | hp''
              · obtain ⟨hsk, hloc⟩ := hinv p' hp'' m' hm'
                refine ⟨hsk, ?_⟩
                rcases hloc with h | ⟨d, hd⟩
                · exact Or.inl (containsKey_mono _ h)
                · rcases List.mem_cons.mp hd with hd | hd
                  · have hmn : m' = n₀ := congrArg Prod.fst hd
                    rw [hmn]
                    apply Or.inl
                    rw [containsKey_append_single]
                    simp
                  · exact Or.inr ⟨d, mem_foldl_push hd⟩
              · rw [List.mem_singleton] at hp''
                rw [hp''] at hm'
                dsimp only at hm'
                have hsk : should_skip_package filt m' = false := by
                  have := (List.mem_filter.mp hm').2
                  simpa using this
                refine ⟨hsk, ?_⟩
                by_cases hkm : (containsKey g m' || m' == n₀) = true
                · apply Or.inl
                  rw [containsKey_append_single]
                  rcases Bool.or_eq_true_iff.mp hkm with h | h
                  · rw [h]
                    rfl
                  · rw [h, Bool.or_true]
                · have hkm' : (containsKey g m' || m' == n₀) = false := by simpa using hkm
                  refine Or.inr ⟨d₀ + 1, ?_⟩
                  apply mem_foldl_push_self
                  apply List.mem_filter.mpr
                  exact ⟨hm', by rw [hkm']; rfl⟩

/-- In a static build whose depth bound exceeds the number of source keys,
no pop is ever truncated. -/
theorem build_no_trunc (cfg : Config) (tg : Graph) (start : String)
    (hdepth : (graphKeys tg).length < cfg.max_depth) :
    ∀ e ∈ (dfs_build_from_test_graph cfg start tg).trace,
      e.branch ≠ StepBranch.truncated := by
  rw [test_build_eq, build_eq_dfsLoop]
  apply dfsLoop_no_trunc (graphKeys tg) ?_ hdepth
    (stackMeasure (fun n => List.lookup n tg) cfg.max_depth [(start, 0)])
    [(start, 0)] [] false (by simp [graphKeys]) ?_
  · intro k hk
    obtain ⟨v, hv⟩ := Option.isSome_iff_exists.mp hk
    exact mem_graphKeys_of_mem (mem_of_lookup_eq_some hv)
  · intro p hp
    rw [List.mem_singleton] at hp
    rw [hp]
    simp [graphKeys]

/-- Every adjacency member of a finished build is itself a key of the
finished build. -/
theorem build_closure (cfg : Config) (fetch : String → Option (List String))
    (start : String) :
    ∀ p ∈ (dfs_build_dependency_graph cfg fetch start).graph,
      ∀ m ∈ p.2,
        containsKey (dfs_build_dependency_graph cfg fetch start).graph m = true := by
  rw [build_eq_dfsLoop]
  apply dfsLoop_closure _ _ _ _ le_rfl
  intro p hp
  simp at hp

/-- With no filter and a depth bound above the number of source keys, a
source key that ends up keyed carries its full source adjacency list. -/
theorem build_keyed_source_entry (cfg : Config) (tg : Graph) (start : String)
    (hfil : cfg.filter_substring = "")
    (hdepth : (graphKeys tg).length < cfg.max_depth) :
    ∀ k ds, List.lookup k tg = some ds →
      containsKey (dfs_build_from_test_graph cfg start tg).graph k = true →
      (k, ds) ∈ (dfs_build_from_test_graph cfg start tg).graph := by
  intro k ds hlk hkey
  rw [test_build_eq, build_eq_dfsLoop] at hkey ⊢
  rcases dfsLoop_keyed_from _ _ _ _ k hkey with h | ⟨e, he, hnode, hkeying⟩
  · rw [show containsKey ([] : Graph) k = false from rfl] at h
    exact absurd h (by simp)
  · rcases hbr : e.branch with _ | _ | _ | _ | _
    · simp [isKeying, hbr] at hkeying
    · exact absurd hbr (build_no_trunc cfg tg start hdepth e he)
    · simp [isKeying, hbr] at hkeying
    · have hkm := (dfsLoop_keying_mem _ _ _ _ e he).2.2 hbr
      obtain ⟨ds', hds', hmem⟩ := hkm
      rw [hnode] at hds' hmem
      have hds'' : ds' = ds := by
        rw [hlk] at hds'
        injection hds' with hds'
        exact hds'.symm
      have hfe : ds.filter (fun m => !(should_skip_package cfg.filter_substring m)) = ds := by
        rw [hfil]
        exact filter_skip_empty ds
      rw [hds'', hfe] at hmem
      exact hmem
    · have hff := (dfsLoop_event_facts _ _ _ _ (by simp [graphKeys]) e he).2.2.1 hbr
      rw [hnode] at hff
      obtain ⟨hn, _⟩ := hff
      rw [hlk] at hn
      exact Option.noConfusion hn

/-- With no filter and a depth bound above the number of source keys,
every node reachable from the start along source edges becomes a key of
the built graph. -/
theorem build_reachable_keyed (cfg : Config) (tg : Graph) (start : String)
    (hfil : cfg.filter_substring = "")
    (hdepth : (graphKeys tg).length < cfg.max_depth) :
    ∀ k, Relation.ReflTransGen (srcEdge tg) start k →
      containsKey (dfs_build_from_test_graph cfg start tg).graph k = true := by
  intro k hreach
  induction hreach with
  | refl =>
    rw [test_build_eq, build_eq_dfsLoop]
    have hsk := @dfsLoop_stack_keyed cfg.max_depth cfg.filter_substring
      (fun n => List.lookup n tg)
      (stackMeasure (fun n => List.lookup n tg) cfg.max_depth [(start, 0)])
      [(start, 0)] [] false le_rfl (start, 0) (List.mem_singleton_self _)
    rcases hsk with h | h
    · exfalso
      rw [hfil, skip_empty_filter] at h
      exact Bool.noConfusion h
    · exact h
  | @tail b c hab hbc ihb =>
    obtain ⟨ds, hlkb, hcm⟩ := hbc
    have hentry := build_keyed_source_entry cfg tg start hfil hdepth b ds hlkb ihb
    exact build_closure cfg (fun n => List.lookup n tg) start (b, ds) hentry c hcm

/-- C7 (counterexample): with an empty filter and maxDepth 10 — far
larger than the transitive closure — building from the source A:[], B:[]
with start A does not reproduce every key of the source: the key B,
unreachable from A, is absent from the result. -/
theorem C7_counterexample :
    ¬ (∀ k ∈ graphKeys srcDisconnected,
        List.lookup k
            (dfs_build_from_test_graph cfgRoundTrip10 "A" srcDisconnected).graph =
          List.lookup k srcDisconnected) := by
  decide

/-- C7 (amended): building from a static source graph with an empty
filter, every source key reachable from the start along source edges, and
maxDepth larger than the number of source keys (so the whole transitive
closure is explored before any truncation) reproduces every key of the
source graph with its identical adjacency list. -/
theorem C7_roundtrip_amended (cfg : Config) (tg : Graph) (start : String)
    (hfil : cfg.filter_substring = "")
    (hdepth : (graphKeys tg).length < cfg.max_depth)
    (hreach : ∀ k ∈ graphKeys tg, Relation.ReflTransGen (srcEdge tg) start k) :
    ∀ k ∈ graphKeys tg,
      List.lookup k (dfs_build_from_test_graph cfg start tg).graph =
        List.lookup k tg := by
  intro k hk
  have hck : containsKey tg k = true := containsKey_iff.mpr hk
  obtain ⟨ds, hds⟩ := Option.isSome_iff_exists.mp (lookup_isSome_of_containsKey hck)
  have hkeyed := build_reachable_keyed cfg tg start hfil hdepth k (hreach k hk)
  have hentry := build_keyed_source_entry cfg tg start hfil hdepth k ds hds hkeyed
  rw [hds]
  exact lookup_eq_some_of_mem_nodup
    (build_keys_nodup cfg (fun n => List.lookup n tg) start) hentry

/-- C7 (witness): the amended round-trip applied to scenario 1's source
tree with depth bound 8, instantiated at the key G. -/
theorem C7_witness :
    List.lookup "G" (dfs_build_from_test_graph cfgTreeDepth8 "A" srcTreeScenario).graph =
      List.lookup "G" srcTreeScenario := by
  apply C7_roundtrip_amended cfgTreeDepth8 srcTreeScenario "A" rfl (by decide) ?_ "G"
    (by decide)
  intro k hk
  have hAB : srcEdge srcTreeScenario "A" "B" := ⟨["B", "C"], by decide, by decide⟩
  have hAC : srcEdge srcTreeScenario "A" "C" := ⟨["B", "C"], by decide, by decide⟩
  have hBD : srcEdge srcTreeScenario "B" "D" := ⟨["D", "E"], by decide, by decide⟩
  have hBE : srcEdge srcTreeScenario "B" "E" := ⟨["D", "E"], by decide, by decide⟩
  have hCF : srcEdge srcTreeScenario "C" "F" := ⟨["F"], by decide, by decide⟩
  have hEG : srcEdge srcTreeScenario "E" "G" := ⟨["G"], by decide, by decide⟩
  have hk' : k = "A" ∨ k = "B" ∨ k = "C" ∨ k = "D" ∨ k = "E" ∨ k = "F" ∨ k = "G" := by
    simpa [srcTreeScenario, graphKeys] using hk
  rcases hk' with rfl | rfl | rfl | rfl | rfl | rfl | rfl
  · exact Relation.ReflTransGen.refl
  · exact Relation.ReflTransGen.single hAB
  · exact Relation.ReflTransGen.single hAC
  · exact Relation.ReflTransGen.tail (Relation.ReflTransGen.single hAB) hBD
  · exact Relation.ReflTransGen.tail (Relation.ReflTransGen.single hAB) hBE
  · exact Relation.ReflTransGen.tail (Relation.ReflTransGen.single hAC) hCF
  · exact Relation.ReflTransGen.tail
      (Relation.ReflTransGen.tail (Relation.ReflTransGen.single hAB) hBE) hEG

end NPMAnalyzer
